import Mathlib

/-! # Formica: wiki-link and Zettelkasten identifier engine

A shallow embedding of `src/linkparser.cpp` (class `LinkParser`) together with
the properties of its identifier operations.

Modelling conventions.

* A `QString` is a list of characters; the null and the empty `QString` are
  both the empty list (the source only ever tests `isEmpty()`).
* The two regular expressions of the source are embedded as matchers that
  follow the structure of the pattern.  `QRegularExpression` is PCRE2 without
  the Unicode-properties option, so `\d` is `0-9` and `[a-z]` is `a-z`; without
  the multiline and dollar-end-only options `^` holds only at offset 0 and `$`
  holds at the very end of the subject or immediately before a line feed that
  is its last character.
* The workspace directory is a list of files in directory-iteration order.
* `Editor::getLinkAtPosition` (`src/editor.cpp`) is embedded from the text
  cursor on: the cursor offset in the line is the input, and the selection of
  the word under the cursor follows `QTextCursor::movePosition` for a paragraph
  shown on one line.
-/

namespace LinkParser

/-! ## Strings and characters -/

/-- A `QString`, as a list of characters. -/
abbrev QString := List Char

/-- The line feed character. -/
def LF : Char := Char.ofNat 10

/-- The carriage return character. -/
def CR : Char := Char.ofNat 13

/-- The class `\d` of the regular expressions: ASCII `0`-`9`. -/
def reDigit (c : Char) : Bool := decide (48 ≤ c.toNat ∧ c.toNat ≤ 57)

/-- The class `[a-z]` of the regular expressions. -/
def reLower (c : Char) : Bool := decide (97 ≤ c.toNat ∧ c.toNat ≤ 122)

/-- `QChar::isSpace`: code points 9 to 13, U+0085, and the Unicode separator
categories Zs, Zl and Zp. -/
def isSpace (c : Char) : Bool :=
  let n := c.toNat
  decide ((9 ≤ n ∧ n ≤ 13) ∨ n = 0x20 ∨ n = 0x85 ∨ n = 0xA0 ∨ n = 0x1680 ∨
    (0x2000 ≤ n ∧ n ≤ 0x200A) ∨ n = 0x2028 ∨ n = 0x2029 ∨ n = 0x202F ∨
    n = 0x205F ∨ n = 0x3000)

/-- `QChar::isDigit` on the characters that reach it: the only call is on the
last character of a string accepted by `isValidZettelId`, which is `0`-`9`,
`a`-`z` or a line feed, where the Unicode decimal-digit category is `0`-`9`. -/
def isDigit (c : Char) : Bool := reDigit c

/-- `QString::trimmed`: whitespace removed from both ends. -/
def trimmed (s : QString) : QString :=
  (s.dropWhile isSpace).rdropWhile isSpace

/-- `QString::startsWith` with a one-character argument. -/
def startsWithChar (s : QString) (c : Char) : Bool :=
  match s with
  | [] => false
  | x :: _ => x == c

/-! ## The identifier regular expressions -/

/-- The greedy repetition `(?:[a-z]+\d*)*` at the start of `s`: the text it
consumes and the text left over.  Every round consumes at least one letter, so
`s.length` rounds always suffice (`matchIdGroups_fuel`). -/
def matchIdGroups : Nat → QString → QString × QString
  | 0, s => ([], s)
  | fuel + 1, s =>
    let letters := s.takeWhile reLower
    if letters = [] then ([], s)
    else
      let r1 := s.dropWhile reLower
      let digits := r1.takeWhile reDigit
      let r2 := r1.dropWhile reDigit
      let more := matchIdGroups fuel r2
      (letters ++ digits ++ more.1, more.2)

/-- The member `m_zettelIdRegex`, `^(\d+(?:[a-z]+\d*)*)`, matched against `s`:
`none` when there is no match, otherwise `captured(1)` and the text from
`capturedEnd()` on.  Nothing follows the group in the pattern, so the greedy
choice is the match. -/
def zettelIdRegexMatch (s : QString) : Option (QString × QString) :=
  let digits := s.takeWhile reDigit
  if digits = [] then none
  else
    let r := s.dropWhile reDigit
    let g := matchIdGroups r.length r
    some (digits ++ g.1, g.2)

/-- The assertion `$` at the position where `rest` is what remains of the
subject: the end of the subject, or just before a final line feed. -/
def dollarHolds (rest : QString) : Bool :=
  match rest with
  | [] => true
  | [c] => c == LF
  | _ => false

/-! ## Identifier parsing and validation -/

/-- The record `ZettelId` of `linkparser.h`. -/
structure ZettelId where
  id : QString
  title : QString
  isValid : Bool
  deriving DecidableEq, Repr

/-- `LinkParser::isValidZettelId`: whether `^\d+(?:[a-z]+\d*)*$` matches `id`.
The words of the pattern are runs of `0-9a-z`, so when `$` fails after the
greedy run it fails after every shorter one as well
(`isValidZettelId_iff`). -/
def isValidZettelId (id : QString) : Bool :=
  match zettelIdRegexMatch id with
  | some (_, rest) => dollarHolds rest
  | none => false

/-- `LinkParser::parseZettelId`. -/
def parseZettelId (text : QString) : ZettelId :=
  let t := trimmed text
  match zettelIdRegexMatch t with
  | some (captured, rest) =>
    let remaining := trimmed rest
    let remaining :=
      if startsWithChar remaining '-' || startsWithChar remaining ':' then
        trimmed (remaining.drop 1)
      else remaining
    { id := captured, title := remaining, isValid := isValidZettelId captured }
  | none => { id := [], title := [], isValid := false }

/-- `LinkParser::extractZettelIdFromFileName`: `captured(1)` of
`m_zettelIdRegex` on the file name, empty when there is no match. -/
def extractZettelIdFromFileName (fileName : QString) : QString :=
  match zettelIdRegexMatch fileName with
  | some (captured, _) => captured
  | none => []

/-! ## The workspace -/

/-- One file met by the directory iteration. `path` is what
`QDirIterator::next()` returns; `content` is the text the file delivers when
opened for reading in text mode, `none` when `QFile::open` fails. -/
structure NoteFile where
  path : QString
  content : Option QString
  deriving DecidableEq, Repr

/-- The files a recursive `QDir::Files` iteration of the workspace directory
visits (regular, not hidden), in iteration order, before the name filter. -/
abbrev Workspace := List NoteFile

/-- `QFileInfo::fileName`: the path after its last `/`. -/
def fileName (path : QString) : QString :=
  (path.reverse.takeWhile (fun c => c != '/')).reverse

/-- `QFileInfo::baseName`: the file name up to its first `.`. -/
def baseName (path : QString) : QString :=
  (fileName path).takeWhile (fun c => c != '.')

/-- ASCII lower-casing of one character. -/
def asciiLower (c : Char) : Char :=
  if 65 ≤ c.toNat ∧ c.toNat ≤ 90 then Char.ofNat (c.toNat + 32) else c

/-- The name filters `*.md` and `*.txt` of the `QDirIterator`; name filters
are matched case-insensitively unless `QDir::CaseSensitive` is given. -/
def nameFilterMatches (path : QString) : Bool :=
  let n := (fileName path).map asciiLower
  List.isSuffixOf ".md".toList n || List.isSuffixOf ".txt".toList n

/-- The files the `QDirIterator` of the source yields. -/
def noteFiles (ws : Workspace) : List NoteFile :=
  ws.filter (fun f => nameFilterMatches f.path)

/-- `QTextStream::readLine` on a fresh stream: the text before the first line
feed, without a carriage return that ends it. -/
def readLine (content : QString) : QString :=
  let line := content.takeWhile (fun c => c != LF)
  if line.getLast? = some CR then line.dropLast else line

/-- `QStringList::removeDuplicates`: the first occurrence of each string is
kept. -/
def removeDuplicates : List QString → List QString
  | [] => []
  | x :: xs => x :: (removeDuplicates xs).filter (fun y => y != x)

/-- What one round of the loop of `getAllZettelIds` appends for a file. -/
def zettelIdsOfFile (f : NoteFile) : List QString :=
  let idFromName := extractZettelIdFromFileName (baseName f.path)
  if idFromName ≠ [] then [idFromName]
  else
    match f.content with
    | some text =>
      let parsedId := parseZettelId (trimmed (readLine text))
      if parsedId.isValid then [parsedId.id] else []
    | none => []

/-- The loop of `getAllZettelIds` over the iterated files. -/
def collectZettelIds : List NoteFile → List QString
  | [] => []
  | f :: fs => zettelIdsOfFile f ++ collectZettelIds fs

/-- `LinkParser::getAllZettelIds`. -/
def getAllZettelIds (ws : Workspace) : List QString :=
  removeDuplicates (collectZettelIds (noteFiles ws))

/-! ## Numbers -/

/-- The character of a decimal digit. -/
def digitChar (d : Nat) : Char := Char.ofNat (48 + d)

/-- Decimal digits of `n`, most significant first; `fuel` bounds the number of
digits and `n + 1` always suffices. -/
def natDigits : Nat → Nat → QString
  | 0, _ => []
  | fuel + 1, n =>
    if n < 10 then [digitChar n] else natDigits fuel (n / 10) ++ [digitChar (n % 10)]

/-- `QString::number` of an `int`. -/
def number (n : Int) : QString :=
  if n < 0 then '-' :: natDigits (n.natAbs + 1) n.natAbs
  else natDigits (n.toNat + 1) n.toNat

/-- The value of a string of decimal digits. -/
def decimalValue (s : QString) : Nat :=
  s.foldl (fun acc c => acc * 10 + (c.toNat - 48)) 0

/-- The largest `int`. -/
def INT_MAX : Int := 2147483647

/-- `QString::toInt` on a non-empty string of digits `0`-`9` (the only strings
it is called on, `captured(1)` of `^(\d+)$`): the value, and 0 when the value
does not fit an `int`. -/
def toInt (digits : QString) : Int :=
  if (decimalValue digits : Int) ≤ INT_MAX then (decimalValue digits : Int) else 0

/-- Addition of `int`s; an overflow, undefined in the source language, wraps
around as on two's-complement hardware. -/
def intAdd (a b : Int) : Int := (a + b + 2147483648) % 4294967296 - 2147483648

/-- The local `topLevelRegex`, `^(\d+)$`, matched against `id`: `captured(1)`,
or `none` when there is no match. When `$` fails after all the leading digits
it fails after fewer of them, where a digit follows. -/
def topLevelRegexMatch (id : QString) : Option QString :=
  let digits := id.takeWhile reDigit
  if digits = [] then none
  else if dollarHolds (id.dropWhile reDigit) then some digits
  else none

/-! ## Identifier generation -/

/-- The letters `a` to `z` in the order of `for (char c = 'a'; c <= 'z'; ++c)`. -/
def lettersAZ : List Char := (List.range 26).map (fun i => Char.ofNat (97 + i))

/-- The numbers 1 to 999 in the order of `for (int i = 1; i <= 999; ++i)`. -/
def numbers1To999 : List Int := (List.range 999).map (fun (i : Nat) => (i : Int) + 1)

/-- A search loop that returns the first candidate missing from
`existingIds`, and the empty string when it runs to its end. -/
def firstUnused (existingIds : List QString) (candidates : List QString) : QString :=
  match candidates.find? (fun c => !existingIds.contains c) with
  | some c => c
  | none => []

/-- `LinkParser::generateChildZettelId`. -/
def generateChildZettelId (parentId : QString) (ws : Workspace) : QString :=
  if !isValidZettelId parentId then []
  else
    let existingIds := getAllZettelIds ws
    let lastIsDigit :=
      match parentId.getLast? with
      | some c => isDigit c
      | none => false
    if lastIsDigit then
      let baseId := parentId ++ ['a']
      if !existingIds.contains baseId then baseId
      else firstUnused existingIds (lettersAZ.map (fun c => parentId ++ [c]))
    else
      let baseId := parentId ++ ['1']
      if !existingIds.contains baseId then baseId
      else firstUnused existingIds (numbers1To999.map (fun (i : Int) => parentId ++ number i))

/-- The loop of `generateNextZettelId` that computes `maxNum`. -/
def maxTopLevel (existingIds : List QString) : Int :=
  existingIds.foldl
    (fun maxNum id =>
      match topLevelRegexMatch id with
      | some captured => max maxNum (toInt captured)
      | none => maxNum)
    0

/-- `LinkParser::generateNextZettelId`. -/
def generateNextZettelId (parentId : QString) (ws : Workspace) : QString :=
  if parentId = [] then
    let existingIds := getAllZettelIds ws
    number (intAdd (maxTopLevel existingIds) 1)
  else generateChildZettelId parentId ws

/-! ## Note resolution -/

/-- `QFileInfo::completeBaseName`: the file name up to its last `.`. -/
def completeBaseName (path : QString) : QString :=
  let n := fileName path
  if n.contains '.' then ((n.reverse.dropWhile (fun c => c != '.')).drop 1).reverse else n

/-- `QString::toLower` on ASCII text; the case mapping of characters outside
ASCII is not part of the model, they are kept. -/
def toLower (s : QString) : QString := s.map asciiLower

/-- `QString::replace(" ", "_")`. -/
def replaceSpaces (s : QString) : QString := s.map (fun c => if c = ' ' then '_' else c)

/-- `LinkParser::normalizeTitle`. -/
def normalizeTitle (title : QString) : QString :=
  replaceSpaces (toLower (trimmed title))

/-- The class `\s` of the regular expressions: space and the code points 9
to 13. -/
def reSpace (c : Char) : Bool := decide (c.toNat = 32 ∨ (9 ≤ c.toNat ∧ c.toNat ≤ 13))

/-- `firstLine.remove(QRegularExpression("^#+\\s*"))`: the leading run of `#`
and the whitespace after it are removed; without a leading `#` there is no
match and nothing is removed. -/
def removeHeadingMarker (firstLine : QString) : QString :=
  if startsWithChar firstLine '#' then
    (firstLine.dropWhile (fun c => c == '#')).dropWhile reSpace
  else firstLine

/-- One round of the loop of `findNoteByTitle`: whether it returns the path
of the file. -/
def titleRoundReturns (normalizedTitle : QString) (f : NoteFile) : Bool :=
  let baseFileName := completeBaseName f.path
  if normalizeTitle baseFileName == normalizedTitle then true
  else
    match f.content with
    | some text =>
      let firstLine := readLine text
      if startsWithChar firstLine '#' then
        let headerTitle := trimmed (removeHeadingMarker firstLine)
        normalizeTitle headerTitle == normalizedTitle
      else false
    | none => false

/-- `LinkParser::findNoteByTitle`. -/
def findNoteByTitle (title : QString) (ws : Workspace) : QString :=
  let normalizedTitle := normalizeTitle title
  match (noteFiles ws).find? (titleRoundReturns normalizedTitle) with
  | some f => f.path
  | none => []

/-- One round of the loop of `findNoteById`: whether it returns the path of
the file. -/
def idRoundReturns (zettelId : QString) (f : NoteFile) : Bool :=
  let fileName := baseName f.path
  if List.isPrefixOf (zettelId ++ [' ']) fileName || fileName == zettelId then true
  else
    match f.content with
    | some text =>
      let firstLine := trimmed (readLine text)
      let parsedId := parseZettelId firstLine
      parsedId.isValid && parsedId.id == zettelId
    | none => false

/-- `LinkParser::findNoteById`. -/
def findNoteById (zettelId : QString) (ws : Workspace) : QString :=
  if !isValidZettelId zettelId then []
  else
    match (noteFiles ws).find? (idRoundReturns zettelId) with
    | some f => f.path
    | none => []

/-! ## Wiki links -/

/-- The record `WikiLink` of `linkparser.h`; `targetExists` is its member
`exists`. -/
structure WikiLink where
  linkText : QString
  displayText : QString
  targetFile : QString
  startPos : Nat
  length : Nat
  targetExists : Bool
  deriving DecidableEq, Repr

/-- One match of `m_wikiLinkRegex`: `captured(1)`, `capturedStart()` and
`capturedLength()`. -/
structure WikiMatch where
  captured : QString
  capturedStart : Nat
  capturedLength : Nat
  deriving DecidableEq, Repr

/-- The pattern `\[\[([^\]]+)\]\]` matched at the very start of `s`: the
bracketed content and the text after the match. The greedy class takes every
character up to the first `]`; a shorter run is followed by a character that
is not `]`, so giving characters back cannot produce a match. -/
def wikiLinkMatchAt (s : QString) : Option (QString × QString) :=
  match s with
  | '[' :: '[' :: t =>
    let content := t.takeWhile (fun c => c != ']')
    if content = [] then none
    else
      match t.dropWhile (fun c => c != ']') with
      | ']' :: ']' :: rest => some (content, rest)
      | _ => none
  | _ => none

/-- `m_wikiLinkRegex.globalMatch`: the matches from left to right, each
search starting where the previous match ended. `pos` is the offset of `s` in
the text; every round consumes a character, so `s.length` rounds suffice. -/
def wikiLinkGlobalMatch : Nat → Nat → QString → List WikiMatch
  | 0, _, _ => []
  | fuel + 1, pos, s =>
    match s with
    | [] => []
    | _ :: t =>
      match wikiLinkMatchAt s with
      | some (content, rest) =>
        ⟨content, pos, content.length + 4⟩ ::
          wikiLinkGlobalMatch fuel (pos + (content.length + 4)) rest
      | none => wikiLinkGlobalMatch fuel (pos + 1) t

/-- `QString::split` with a one-character separator, empty parts kept. -/
def split (sep : Char) (s : QString) : List QString :=
  s.foldr
    (fun c acc =>
      if c = sep then [] :: acc
      else
        match acc with
        | [] => [[c]]
        | x :: xs => (c :: x) :: xs)
    [[]]

/-- The body of the loop of `parseWikiLinks` for one match. The workspace is
`none` when `workspacePath` is empty. A path that the resolution just found
exists. -/
def wikiLinkOfMatch (m : WikiMatch) (workspace : Option Workspace) : WikiLink :=
  let fullMatch := m.captured
  let linkText :=
    if fullMatch.contains '|' then trimmed ((split '|' fullMatch).getD 0 [])
    else trimmed fullMatch
  let displayText :=
    if fullMatch.contains '|' then trimmed ((split '|' fullMatch).getD 1 [])
    else trimmed fullMatch
  match workspace with
  | some ws =>
    let byId := findNoteById linkText ws
    let targetFile := if byId.isEmpty then findNoteByTitle linkText ws else byId
    { linkText := linkText, displayText := displayText, targetFile := targetFile,
      startPos := m.capturedStart, length := m.capturedLength,
      targetExists := !targetFile.isEmpty }
  | none =>
    { linkText := linkText, displayText := displayText, targetFile := [],
      startPos := m.capturedStart, length := m.capturedLength, targetExists := false }

/-- `LinkParser::parseWikiLinks`. -/
def parseWikiLinks (text : QString) (workspace : Option Workspace) : List WikiLink :=
  (wikiLinkGlobalMatch text.length 0 text).map (fun m => wikiLinkOfMatch m workspace)

/-- The test of `findBacklinks` on one link: whether it points to the note. -/
def linkPointsTo (noteTitle zettelId notePath : QString) (link : WikiLink) : Bool :=
  link.linkText == noteTitle ||
    (link.linkText == zettelId && !zettelId.isEmpty) ||
    link.targetFile == notePath

/-- `LinkParser::findBacklinks`. -/
def findBacklinks (notePath : QString) (ws : Workspace) : List QString :=
  let noteTitle := completeBaseName notePath
  let zettelId := extractZettelIdFromFileName noteTitle
  ((noteFiles ws).filter
    (fun f =>
      if f.path == notePath then false
      else
        match f.content with
        | some content =>
          (parseWikiLinks content none).any (linkPointsTo noteTitle zettelId notePath)
        | none => false)).map (fun f => f.path)

/-! ## Position lookup in the editor -/

/-- `QTextEngine::atWordSeparator`: the punctuation at which the text cursor
of Qt ends a word, namely . , ? ! @ # $ : ; - < > [ ] ( ) = / + % & ^ * ~ |,
the two braces (123, 125), the apostrophe (39), the double quote (34), the
grave accent (96) and the backslash (92). -/
def atWordSeparator (c : Char) : Bool :=
  ".,?!@#$:;-<>[]()=/+%&^*~|".toList.contains c || [123, 125, 39, 34, 96, 92].contains c.toNat

/-- `QTextLayout::previousCursorPosition` in the mode `SkipWords`, on the text
of a paragraph: from `oldPos` back over whitespace, then back over a run of
word separators if one ends there, otherwise back over a run of characters
that are neither whitespace nor separators. -/
def previousCursorPosition (text : QString) (oldPos : Nat) : Nat :=
  if oldPos = 0 ∨ text.length < oldPos then oldPos
  else
    let before := ((text.take oldPos).reverse).dropWhile isSpace
    match before with
    | [] => 0
    | c :: rest =>
      if atWordSeparator c then (rest.dropWhile atWordSeparator).length
      else (before.dropWhile (fun x => !isSpace x && !atWordSeparator x)).length

/-- The cursor position after `movePosition(QTextCursor::StartOfWord)`: the
cursor stays at the start of the paragraph, and at its end when a whitespace
or a separator stands before it; otherwise it steps one character to the
right, unless it is at the end, and goes back to the previous word start. -/
def startOfWord (text : QString) (pos : Nat) : Nat :=
  if pos = 0 then pos
  else if pos = text.length ∧
      (match text.get? (pos - 1) with
        | some c => isSpace c || atWordSeparator c
        | none => false) = true then pos
  else previousCursorPosition text (if pos < text.length then pos + 1 else pos)

/-- The cursor position after `movePosition(QTextCursor::EndOfWord)`: at the
end of the paragraph the cursor stays; on a separator it goes to the end of
the run of separators; otherwise it goes forward over the characters that are
neither whitespace nor separators. -/
def endOfWord (text : QString) (pos : Nat) : Nat :=
  match text.drop pos with
  | [] => pos
  | c :: rest =>
    if atWordSeparator c then pos + 1 + (rest.takeWhile atWordSeparator).length
    else pos + ((c :: rest).takeWhile (fun x => !isSpace x && !atWordSeparator x)).length

/-- The value of `cursor.position()` after
`cursor.select(QTextCursor::WordUnderCursor)`, which is `StartOfWord` and then
`EndOfWord` with the anchor kept: the end of the word, or of the run of
separators, under the cursor. -/
def selectWordUnderCursor (text : QString) (pos : Nat) : Nat :=
  endOfWord text (startOfWord text pos)

/-- `Editor::getLinkAtPosition` (`editor.cpp`). The widget turns the mouse
point into a text cursor (`cursorForPosition`); `lineText` is the line of that
cursor and `cursorPos` its offset in the line, both taken as given, for a
paragraph shown on one line, so that `lineCursor.anchor()` is the start of
the paragraph. `positionInLine` is `cursor.position() - lineCursor.anchor()`
after the word under the cursor has been selected. The result is the link
text of the first link that passes the test of the loop, empty when there is
none. -/
def getLinkAtPosition (lineText : QString) (cursorPos : Nat)
    (workspace : Option Workspace) : QString :=
  let positionInLine := selectWordUnderCursor lineText cursorPos
  match (parseWikiLinks lineText workspace).find?
      (fun link =>
        decide (positionInLine ≥ link.startPos) &&
          decide (positionInLine ≤ link.startPos + link.length)) with
  | some link => link.linkText
  | none => []

/-! ## The identifier grammar of the specification -/

/-- The run `digit+` of the grammar. -/
def digitPlus : Language Char := {w | w ≠ [] ∧ ∀ c ∈ w, reDigit c = true}

/-- The run `letter+` of the grammar, letters being `a`-`z`. -/
def letterPlus : Language Char := {w | w ≠ [] ∧ ∀ c ∈ w, reLower c = true}

/-- The run `digit*` of the grammar. -/
def digitStar : Language Char := {w | ∀ c ∈ w, reDigit c = true}

/-- The grammar `digit+ (letter+ digit*)*` of identifiers. -/
def zettelGrammar : Language Char :=
  digitPlus * KStar.kstar (letterPlus * digitStar)

/-- A character of an identifier: a digit or a letter `a`-`z`. -/
def isIdChar (c : Char) : Bool := reDigit c || reLower c

/-- The text `text` begins with the word `id` of the grammar, `rest` follows
it, and no longer beginning of `text` is a word of the grammar. -/
def IsLongestIdMatch (text id rest : QString) : Prop :=
  text = id ++ rest ∧ id ∈ zettelGrammar ∧
    ∀ id2 rest2, text = id2 ++ rest2 → id2 ∈ zettelGrammar → id2.length ≤ id.length

/-- The title of the specification for the text `rest` after the match:
surrounding whitespace removed, one leading `-` or `:` removed if present,
whitespace removed again. -/
def titleAfterMatch (rest : QString) : QString :=
  match trimmed rest with
  | [] => []
  | c :: r => if c = '-' ∨ c = ':' then trimmed r else c :: r

/-- The child space of parent `p` is used up in `ids`: every candidate, `p`
with a letter `a`-`z` when `p` ends in a digit, `p` with a number 1 to 999
when `p` ends in a letter, is in `ids`. -/
def ChildSpaceExhausted (p : QString) (ids : List QString) : Prop :=
  (∃ c, p.getLast? = some c ∧ reDigit c = true ∧
      ∀ j, j < 26 → p ++ [Char.ofNat (97 + j)] ∈ ids) ∨
  (∃ c, p.getLast? = some c ∧ reLower c = true ∧
      ∀ j : Nat, 1 ≤ j → j ≤ 999 → p ++ number j ∈ ids)

/-- An identifier that consists of digits only. -/
def isAllDigits (id : QString) : Bool := !id.isEmpty && id.all reDigit

/-- The largest integer value among the identifiers of `ids` that consist of
digits only, 0 when there is none. -/
def topLevelMax (ids : List QString) : Nat :=
  ((ids.filter isAllDigits).map decimalValue).foldr max 0

/-! ## Resolution and backlinks in the words of the specification -/

/-- The first line of a note, empty when the file is unreadable or empty. -/
def firstLineOf (f : NoteFile) : QString :=
  match f.content with
  | some text => readLine text
  | none => []

/-- The match predicate of resolution by identifier as the specification
words it: the base file name, which is the file name without its extension,
is `token`, or begins with `token` and a space, or the first line parses to a
valid identifier equal to `token`. -/
def specMatchesById (token : QString) (f : NoteFile) : Bool :=
  completeBaseName f.path == token ||
    List.isPrefixOf (token ++ [' ']) (completeBaseName f.path) ||
    ((parseZettelId (firstLineOf f)).isValid && (parseZettelId (firstLineOf f)).id == token)

/-- The test that `findNoteById` applies to a file, in closed form: that of
`specMatchesById` with the base name the code takes there,
`QFileInfo::baseName`, the file name up to its first `.`, in place of the
file name without its extension. -/
def matchesById (token : QString) (f : NoteFile) : Bool :=
  baseName f.path == token || List.isPrefixOf (token ++ [' ']) (baseName f.path) ||
    ((parseZettelId (firstLineOf f)).isValid && (parseZettelId (firstLineOf f)).id == token)

/-- A heading line without its leading `#`s and the whitespace after them. -/
def headingText (line : QString) : QString :=
  (line.dropWhile (fun c => c == '#')).dropWhile isSpace

/-- The match predicate of resolution by title: the normalized token is the
normalized base file name or, when the first line begins with `#`, the
normalized heading text. -/
def matchesByTitle (token : QString) (f : NoteFile) : Bool :=
  normalizeTitle token == normalizeTitle (completeBaseName f.path) ||
    (startsWithChar (firstLineOf f) '#' &&
      normalizeTitle token == normalizeTitle (headingText (firstLineOf f)))

/-- The identifier a note contributes to the enumeration: the one extracted
from its base file name if there is one, otherwise the one its first line
parses to if that is valid, otherwise none. -/
def noteIdOf (f : NoteFile) : Option QString :=
  if extractZettelIdFromFileName (baseName f.path) ≠ [] then
    some (extractZettelIdFromFileName (baseName f.path))
  else if (parseZettelId (firstLineOf f)).isValid then some (parseZettelId (firstLineOf f)).id
  else none

/-- The target of a link text under the combined policy: resolution by
identifier, and by title when that finds nothing. -/
def resolveLink (linkText : QString) (ws : Workspace) : QString :=
  if findNoteById linkText ws ≠ [] then findNoteById linkText ws
  else findNoteByTitle linkText ws

/-- The span of a link, the `length` characters from `startPos` on, contains
the offset `p`. -/
def spanContains (link : WikiLink) (p : Nat) : Prop :=
  link.startPos ≤ p ∧ p < link.startPos + link.length

/-- A text made of links `[[c]]`, each after a separator, and a last
separator: the list holds the pairs of separator and bracketed content. -/
def linkedText : List (QString × QString) → QString → QString
  | [], lastSep => lastSep
  | (sep, c) :: more, lastSep => sep ++ "[[".toList ++ c ++ "]]".toList ++ linkedText more lastSep

/-- The file itself when it can be opened, and an empty file of the same
path when it cannot. -/
def asEmptyFile (f : NoteFile) : NoteFile :=
  match f.content with
  | some _ => f
  | none => { path := f.path, content := some [] }

/-- The workspace in which every file that cannot be opened is an empty
file. -/
def unreadableAsEmpty (ws : Workspace) : Workspace := ws.map asEmptyFile

/-! ## Example workspaces -/

/-- A workspace whose notes carry the identifiers `1`, `1a` and `1b`: two in
their file names, one in its first line. -/
def workspaceThree : Workspace :=
  [⟨"/notes/1 Intro.md".toList, some "Intro".toList⟩,
   ⟨"/notes/1a.txt".toList, none⟩,
   ⟨"/notes/draft.md".toList, some "1b - Draft\nText".toList⟩]

/-- A workspace with the 26 notes `1a.md` to `1z.md`. -/
def workspaceLetters : Workspace :=
  lettersAZ.map (fun c => ⟨"/notes/1".toList ++ [c] ++ ".md".toList, none⟩)

/-- A workspace with the single note `3000000000.md`. -/
def workspaceLarge : Workspace := [⟨"/notes/3000000000.md".toList, some []⟩]

/-- A workspace with the notes `1.md`, `2.md` and `9999999999 Log.md`. -/
def workspaceMixed : Workspace :=
  [⟨"/notes/1.md".toList, some []⟩, ⟨"/notes/2.md".toList, some []⟩,
   ⟨"/notes/9999999999 Log.md".toList, some []⟩]

/-- A workspace with the notes `1.md`, `2 Plan.md` and `4.txt`. -/
def workspaceTop : Workspace :=
  [⟨"/notes/1.md".toList, some []⟩, ⟨"/notes/2 Plan.md".toList, none⟩,
   ⟨"/notes/sub/4.txt".toList, some "text".toList⟩]

/-- The workspace of the end-to-end example: `1 Intro.md`, `1a Details.md`
and `Conclusion.md`. -/
def workspaceNotes : Workspace :=
  [⟨"/notes/1 Intro.md".toList, some "1 Intro\n\nSee [[1a]] and [[Conclusion]]".toList⟩,
   ⟨"/notes/1a Details.md".toList, some "Details".toList⟩,
   ⟨"/notes/Conclusion.md".toList, some "# The End".toList⟩]

/-- A workspace whose only note has the file name `1`, a line feed, `.md`. -/
def workspaceLineFeed : Workspace :=
  [⟨"/notes/1".toList ++ [LF] ++ ".md".toList, none⟩]

/-- A workspace whose only note is `_a.md`. -/
def workspaceUnderscore : Workspace := [⟨"/notes/_a.md".toList, some []⟩]

/-- A workspace in which `Heading.md`, whose heading is `# 1a`, is scanned
before `1a Details.md`. -/
def workspaceTitleFirst : Workspace :=
  [⟨"/notes/Heading.md".toList, some "# 1a\nText".toList⟩,
   ⟨"/notes/1a Details.md".toList, some "Details".toList⟩]

/-- A workspace whose only file is `Notes.markdown`. -/
def workspaceMarkdownTitle : Workspace :=
  [⟨"/notes/Notes.markdown".toList, some "# Notes".toList⟩]

/-- A workspace whose only file is `7.markdown`. -/
def workspaceMarkdownId : Workspace :=
  [⟨"/notes/7.markdown".toList, some "7 Seven".toList⟩]

/-- A workspace whose only note is `1 Intro.md` with the first line
`2 Other`. -/
def workspaceTwoIds : Workspace :=
  [⟨"/notes/1 Intro.md".toList, some "2 Other\nText".toList⟩]

/-- A workspace in which `a.md` links to `Conclusion.md` in lower case. -/
def workspaceLowerLink : Workspace :=
  [⟨"/notes/Conclusion.md".toList, some "# End".toList⟩,
   ⟨"/notes/a.md".toList, some "see [[conclusion]]".toList⟩]

/-- A workspace with the note `1a-notes.md` and a file that holds only the
link `[[1a]]`. -/
def workspaceIdPrefix : Workspace :=
  [⟨"/notes/1a-notes.md".toList, some "Notes".toList⟩,
   ⟨"/notes/b.md".toList, some "[[1a]]".toList⟩]

/-- A workspace in which `A.md` links to itself and `B.md` links to `A.md`
twice. -/
def workspaceSelfLink : Workspace :=
  [⟨"/notes/A.md".toList, some "see [[A]]".toList⟩,
   ⟨"/notes/B.md".toList, some "[[A]] and again [[A|the first]]".toList⟩]

/-- A workspace whose first note cannot be opened; the second is
`1a Details.md`, the third links to it. -/
def workspaceUnreadable : Workspace :=
  [⟨"/notes/locked.md".toList, none⟩,
   ⟨"/notes/1a Details.md".toList, some "# Details".toList⟩,
   ⟨"/notes/c.md".toList, some "see [[1a]]".toList⟩]

/-- A workspace whose only note is `1.5 plan.md`. -/
def workspacePlan : Workspace := [⟨"/notes/1.5 plan.md".toList, some "Plan".toList⟩]

/-- A workspace whose only note is `1 Intro.md` with the first line
`1a Notes`. -/
def workspaceFirstLineId : Workspace :=
  [⟨"/notes/1 Intro.md".toList, some "1a Notes\nText".toList⟩]

/-- A workspace whose only note is `5 Plan.md` with the first line
`6 Next`. -/
def workspaceFirstLineTop : Workspace :=
  [⟨"/notes/5 Plan.md".toList, some "6 Next".toList⟩]

/-! # Properties -/

/-! ## The grammar as runs of identifier characters -/

theorem grammar_append_idChar {w : QString} {c : Char} (hw : w ∈ zettelGrammar)
    (hc : isIdChar c = true) : w ++ [c] ∈ zettelGrammar := by
  obtain ⟨a, ha, b, hb, rfl⟩ := Language.mem_mul.mp hw
  rw [← Language.one_add_kstar_mul_self_eq_kstar, Language.mem_add] at hb
  rcases Bool.or_eq_true _ _ ▸ hc with hd | hl
  · rcases hb with hb | hb
    · rw [Language.mem_one] at hb
      subst hb
      refine Language.mem_mul.mpr ⟨a ++ [c], ⟨by simp, ?_⟩, [], Language.nil_mem_kstar _, by simp⟩
      intro x hx
      rcases List.mem_append.mp hx with hx | hx
      · exact ha.2 x hx
      · rw [List.mem_singleton.mp hx]; exact hd
    · obtain ⟨b1, hb1, k, hk, rfl⟩ := Language.mem_mul.mp hb
      obtain ⟨l, hl, ds, hds, rfl⟩ := Language.mem_mul.mp hk
      refine Language.mem_mul.mpr ⟨a, ha, b1 ++ (l ++ (ds ++ [c])), ?_, by simp⟩
      rw [← Language.one_add_kstar_mul_self_eq_kstar, Language.mem_add]
      right
      refine Language.mem_mul.mpr ⟨b1, hb1, _, Language.mem_mul.mpr ⟨l, hl, ds ++ [c], ?_, rfl⟩, rfl⟩
      intro x hx
      rcases List.mem_append.mp hx with hx | hx
      · exact hds x hx
      · rw [List.mem_singleton.mp hx]; exact hd
  · have hb' : b ∈ KStar.kstar (letterPlus * digitStar) := by
      rw [← Language.one_add_kstar_mul_self_eq_kstar, Language.mem_add]; exact hb
    refine Language.mem_mul.mpr ⟨a, ha, b ++ [c], ?_, by simp⟩
    rw [← Language.one_add_kstar_mul_self_eq_kstar, Language.mem_add]
    right
    refine Language.mem_mul.mpr ⟨b, hb', [c], Language.mem_mul.mpr ⟨[c], ⟨by simp, ?_⟩, [], ?_, rfl⟩, rfl⟩
    · intro x hx; rw [List.mem_singleton.mp hx]; exact hl
    · intro x hx; simp at hx

/-- The words of `digit+ (letter+ digit*)*` are the strings of digits and
letters `a`-`z` that begin with a digit. -/
theorem mem_zettelGrammar_iff (w : QString) :
    w ∈ zettelGrammar ↔
      ∃ d t, w = d :: t ∧ reDigit d = true ∧ ∀ c ∈ t, isIdChar c = true := by
  constructor
  · intro hw
    obtain ⟨a, ha, b, hb, rfl⟩ := Language.mem_mul.mp hw
    obtain ⟨L, rfl, hL⟩ := Language.mem_kstar.mp hb
    obtain ⟨hne, hdig⟩ := ha
    cases a with
    | nil => exact absurd rfl hne
    | cons d a' =>
      refine ⟨d, a' ++ L.flatten, rfl, hdig d (by simp), ?_⟩
      intro c hc
      rcases List.mem_append.mp hc with hc | hc
      · simp [isIdChar, hdig c (List.mem_cons_of_mem _ hc)]
      · obtain ⟨y, hy, hcy⟩ := List.mem_flatten.mp hc
        obtain ⟨l, hl, ds, hds, rfl⟩ := Language.mem_mul.mp (hL y hy)
        rcases List.mem_append.mp hcy with h | h
        · simp [isIdChar, hl.2 c h]
        · simp [isIdChar, hds c h]
  · rintro ⟨d, t, rfl, hd, ht⟩
    induction t using List.reverseRecOn with
    | nil =>
      refine Language.mem_mul.mpr ⟨[d], ⟨by simp, ?_⟩, [], Language.nil_mem_kstar _, rfl⟩
      intro x hx; rw [List.mem_singleton.mp hx]; exact hd
    | append_singleton t c ih =>
      have := grammar_append_idChar (ih (fun x hx => ht x (by simp [hx]))) (ht c (by simp))
      simpa using this

/-! ## The matchers compute the longest run -/

theorem takeWhile_refine {p q : Char → Bool} (hpq : ∀ c, p c = true → q c = true)
    (t : QString) :
    t.takeWhile q = t.takeWhile p ++ (t.dropWhile p).takeWhile q := by
  induction t with
  | nil => simp
  | cons x t ih =>
    by_cases hp : p x = true
    · simp [List.takeWhile_cons, List.dropWhile_cons, hp, hpq x hp, ih]
    · simp [List.takeWhile_cons, List.dropWhile_cons, hp]

theorem dropWhile_refine {p q : Char → Bool} (hpq : ∀ c, p c = true → q c = true)
    (t : QString) :
    t.dropWhile q = (t.dropWhile p).dropWhile q := by
  induction t with
  | nil => simp
  | cons x t ih =>
    by_cases hp : p x = true
    · simp [List.dropWhile_cons, hp, hpq x hp, ih]
    · simp [List.dropWhile_cons, hp]

theorem dropWhile_head_false (p : Char → Bool) (t : QString) :
    ∀ c, (t.dropWhile p).head? = some c → p c = false := by
  induction t with
  | nil => simp
  | cons x t ih =>
    intro c hc
    by_cases hp : p x = true
    · rw [List.dropWhile_cons_of_pos hp] at hc; exact ih c hc
    · rw [List.dropWhile_cons_of_neg hp] at hc
      simp at hc; subst hc; simpa using hp

/-- With at least `s.length` rounds, and `s` not beginning with a digit, the
repetition consumes exactly the leading run of identifier characters. -/
theorem matchIdGroups_fuel (fuel : Nat) (s : QString) (hf : s.length ≤ fuel)
    (hs : ∀ c, s.head? = some c → reDigit c = false) :
    matchIdGroups fuel s = (s.takeWhile isIdChar, s.dropWhile isIdChar) := by
  induction fuel generalizing s with
  | zero =>
    have : s = [] := List.length_eq_zero.mp (Nat.le_zero.mp hf)
    subst this; rfl
  | succ fuel ih =>
    unfold matchIdGroups
    by_cases hl : s.takeWhile reLower = []
    · simp only [hl, if_true]
      cases s with
      | nil => rfl
      | cons x t =>
        have hx : reLower x = false := by
          cases h : reLower x with
          | false => rfl
          | true => simp [List.takeWhile_cons, h] at hl
        have hd : reDigit x = false := hs x rfl
        simp [List.takeWhile_cons, List.dropWhile_cons, isIdChar, hx, hd]
    · simp only [hl, if_false]
      have hlen : ((s.dropWhile reLower).dropWhile reDigit).length ≤ fuel := by
        have h1 : (s.takeWhile reLower).length + (s.dropWhile reLower).length = s.length := by
          rw [← List.length_append, List.takeWhile_append_dropWhile]
        have h2 : ((s.dropWhile reLower).dropWhile reDigit).length ≤ (s.dropWhile reLower).length :=
          (List.dropWhile_sublist _).length_le
        have h3 : 0 < (s.takeWhile reLower).length := List.length_pos.mpr hl
        omega
      rw [ih _ hlen (dropWhile_head_false reDigit _)]
      have hL : ∀ c, reLower c = true → isIdChar c = true := by
        intro c h; simp [isIdChar, h]
      have hD : ∀ c, reDigit c = true → isIdChar c = true := by
        intro c h; simp [isIdChar, h]
      rw [takeWhile_refine hL s, takeWhile_refine hD (s.dropWhile reLower),
        dropWhile_refine hL s, dropWhile_refine hD (s.dropWhile reLower)]
      simp [List.append_assoc]

theorem zettelIdRegexMatch_cons_digit (d : Char) (t : QString) (hd : reDigit d = true) :
    zettelIdRegexMatch (d :: t) = some (d :: t.takeWhile isIdChar, t.dropWhile isIdChar) := by
  have hD : ∀ c, reDigit c = true → isIdChar c = true := by
    intro c h; simp [isIdChar, h]
  unfold zettelIdRegexMatch
  simp only [List.takeWhile_cons_of_pos hd, List.dropWhile_cons_of_pos hd]
  rw [matchIdGroups_fuel _ _ (le_refl _) (dropWhile_head_false reDigit t)]
  simp [takeWhile_refine hD t, dropWhile_refine hD t]

theorem zettelIdRegexMatch_nil : zettelIdRegexMatch [] = none := rfl

theorem zettelIdRegexMatch_cons_nondigit (c : Char) (t : QString) (hc : reDigit c = false) :
    zettelIdRegexMatch (c :: t) = none := by
  simp [zettelIdRegexMatch, List.takeWhile_cons, hc]

theorem dollarHolds_iff (r : QString) : dollarHolds r = true ↔ r = [] ∨ r = [LF] := by
  match r with
  | [] => simp [dollarHolds]
  | [c] => simp [dollarHolds]
  | _ :: _ :: _ => simp [dollarHolds]

theorem isIdChar_LF : isIdChar LF = false := by decide

theorem dropWhile_eq_singleton_iff (p : Char → Bool) (t : QString) (x : Char) (hx : p x = false) :
    t.dropWhile p = [x] ↔ ∃ t0, t = t0 ++ [x] ∧ ∀ c ∈ t0, p c = true := by
  constructor
  · intro h
    refine ⟨t.takeWhile p, ?_, fun c hc => List.mem_takeWhile_imp hc⟩
    rw [← h, List.takeWhile_append_dropWhile]
  · rintro ⟨t0, rfl, h0⟩
    rw [List.dropWhile_append_of_pos h0]
    simp [List.dropWhile_cons, hx]

/-- What `isValidZettelId` accepts: the words of the grammar, and the words of
the grammar followed by one line feed. -/
theorem isValidZettelId_iff (s : QString) :
    isValidZettelId s = true ↔
      s ∈ zettelGrammar ∨ ∃ t, t ∈ zettelGrammar ∧ s = t ++ [LF] := by
  cases s with
  | nil =>
    simp only [isValidZettelId, zettelIdRegexMatch_nil, mem_zettelGrammar_iff]
    simp
  | cons c t =>
    by_cases hc : reDigit c = true
    · simp only [isValidZettelId, zettelIdRegexMatch_cons_digit c t hc, dollarHolds_iff]
      constructor
      · rintro (h | h)
        · left
          exact (mem_zettelGrammar_iff _).mpr
            ⟨c, t, rfl, hc, (List.dropWhile_eq_nil_iff).mp h⟩
        · right
          obtain ⟨t0, rfl, h0⟩ := (dropWhile_eq_singleton_iff isIdChar t LF isIdChar_LF).mp h
          exact ⟨c :: t0, (mem_zettelGrammar_iff _).mpr ⟨c, t0, rfl, hc, h0⟩, rfl⟩
      · rintro (h | ⟨u, hu, hs⟩)
        · obtain ⟨d, t1, h1, -, h2⟩ := (mem_zettelGrammar_iff _).mp h
          injection h1 with h1 h3
          subst h3
          left
          exact (List.dropWhile_eq_nil_iff).mpr h2
        · obtain ⟨d, t1, rfl, -, h2⟩ := (mem_zettelGrammar_iff _).mp hu
          rw [List.cons_append] at hs
          injection hs with h1 h3
          subst h3
          right
          exact (dropWhile_eq_singleton_iff isIdChar _ LF isIdChar_LF).mpr ⟨t1, rfl, h2⟩
    · have hc' : reDigit c = false := by simpa using hc
      simp only [isValidZettelId, zettelIdRegexMatch_cons_nondigit c t hc']
      constructor
      · intro h; cases h
      · rintro (h | ⟨u, hu, hs⟩)
        · obtain ⟨d, t1, h1, hd, -⟩ := (mem_zettelGrammar_iff _).mp h
          injection h1 with h1 h3
          subst h1
          exact absurd hd hc
        · obtain ⟨d, t1, rfl, hd, -⟩ := (mem_zettelGrammar_iff _).mp hu
          rw [List.cons_append] at hs
          injection hs with h1 h3
          subst h1
          exact absurd hd hc

theorem isValidZettelId_of_grammar {s : QString} (h : s ∈ zettelGrammar) :
    isValidZettelId s = true :=
  (isValidZettelId_iff s).mpr (Or.inl h)

/-! ## Trimming -/

theorem isSpace_of_isIdChar {c : Char} (h : isIdChar c = true) : isSpace c = false := by
  simp only [isIdChar, reDigit, reLower, Bool.or_eq_true, decide_eq_true_eq] at h
  simp only [isSpace, decide_eq_false_iff_not]
  omega

theorem rdropWhile_append_of_self (p : Char → Bool) (a b : QString)
    (ha : a.rdropWhile p = a) :
    (a ++ b).rdropWhile p = a ++ b.rdropWhile p := by
  induction b using List.reverseRecOn with
  | nil => simpa using ha
  | append_singleton b c ih =>
    by_cases hc : p c = true
    · rw [← List.append_assoc, List.rdropWhile_concat_pos _ _ _ hc,
        List.rdropWhile_concat_pos _ _ _ hc, ih]
    · rw [← List.append_assoc, List.rdropWhile_concat_neg _ _ _ hc,
        List.rdropWhile_concat_neg _ _ _ hc, List.append_assoc]

theorem trimmed_concat_space (r : QString) (c : Char) (hc : isSpace c = true) :
    trimmed (r ++ [c]) = trimmed r := by
  unfold trimmed
  rw [List.dropWhile_append]
  split
  · rename_i h
    have h' : r.dropWhile isSpace = [] := by simpa using h
    simp [h', List.dropWhile_cons, hc, List.rdropWhile_nil]
  · rw [List.rdropWhile_concat_pos _ _ _ hc]

theorem trimmed_rdropWhile (r : QString) : trimmed (r.rdropWhile isSpace) = trimmed r := by
  induction r using List.reverseRecOn with
  | nil => simp [List.rdropWhile_nil]
  | append_singleton r c ih =>
    by_cases hc : isSpace c = true
    · rw [List.rdropWhile_concat_pos _ _ _ hc, ih, trimmed_concat_space r c hc]
    · rw [List.rdropWhile_concat_neg _ _ _ hc]

theorem rdropWhile_head (p : Char → Bool) (r : QString) :
    ∀ c, (r.rdropWhile p).head? = some c → r.head? = some c := by
  intro c hc
  obtain ⟨t, ht⟩ := List.rdropWhile_prefix p (l := r)
  rw [← ht]
  cases h : r.rdropWhile p with
  | nil => rw [h] at hc; simp at hc
  | cons x xs => rw [h] at hc; simpa using hc

theorem takeWhile_eq_nil_of_head {p : Char → Bool} {r : QString}
    (h : ∀ c, r.head? = some c → p c = false) : r.takeWhile p = [] ∧ r.dropWhile p = r := by
  cases r with
  | nil => simp
  | cons x xs =>
    have := h x rfl
    simp [List.takeWhile_cons, List.dropWhile_cons, this]

/-- The match of `m_zettelIdRegex` on a word of the grammar followed by text
that does not continue it. -/
theorem zettelIdRegexMatch_append {id rest : QString} (hid : id ∈ zettelGrammar)
    (hrest : ∀ c, rest.head? = some c → isIdChar c = false) :
    zettelIdRegexMatch (id ++ rest) = some (id, rest) := by
  obtain ⟨d, t, rfl, hd, ht⟩ := (mem_zettelGrammar_iff _).mp hid
  rw [List.cons_append, zettelIdRegexMatch_cons_digit d _ hd,
    List.takeWhile_append_of_pos ht, List.dropWhile_append_of_pos ht,
    (takeWhile_eq_nil_of_head hrest).1, (takeWhile_eq_nil_of_head hrest).2]
  simp

theorem trimmed_grammar_append {id rest : QString} (hid : id ∈ zettelGrammar) :
    trimmed (id ++ rest) = id ++ rest.rdropWhile isSpace := by
  obtain ⟨d, t, rfl, hd, ht⟩ := (mem_zettelGrammar_iff _).mp hid
  have hdsp : isSpace d = false := isSpace_of_isIdChar (by simp [isIdChar, hd])
  unfold trimmed
  rw [List.cons_append, List.dropWhile_cons_of_neg (by simp [hdsp]), ← List.cons_append]
  apply rdropWhile_append_of_self
  rw [List.rdropWhile_eq_self_iff]
  intro hl
  have hmem := List.getLast_mem hl
  rcases List.mem_cons.mp hmem with h | h
  · rw [h]; simp [hdsp]
  · simp [isSpace_of_isIdChar (ht _ h)]

/-! ## Parsing -/

theorem isLongestIdMatch_of_head (id rest : QString) (hid : id ∈ zettelGrammar)
    (hrest : ∀ c, rest.head? = some c → isIdChar c = false) :
    IsLongestIdMatch (id ++ rest) id rest := by
  refine ⟨rfl, hid, ?_⟩
  intro id2 rest2 heq hid2
  by_contra hlt
  obtain ⟨d, t, rfl, hd, ht⟩ := (mem_zettelGrammar_iff _).mp hid2
  have hall : ∀ c ∈ d :: t, isIdChar c = true := by
    intro c hc
    rcases List.mem_cons.mp hc with h | h
    · rw [h]; simp [isIdChar, hd]
    · exact ht c h
  rcases List.append_eq_append_iff.mp heq with ⟨a, h1, h2⟩ | ⟨a, h1, h2⟩
  · cases a with
    | nil => simp at h1; rw [h1] at hlt; exact hlt (le_refl _)
    | cons x xs =>
      have hx : isIdChar x = true := hall x (by rw [h1]; simp)
      have := hrest x (by rw [h2]; rfl)
      rw [hx] at this; cases this
  · apply hlt
    rw [h1]; simp

theorem head_not_idChar_of_longest {text id rest : QString}
    (h : IsLongestIdMatch text id rest) :
    ∀ c, rest.head? = some c → isIdChar c = false := by
  obtain ⟨rfl, hid, hlong⟩ := h
  intro c hc
  cases rest with
  | nil => simp at hc
  | cons x xs =>
    simp at hc; subst hc
    cases hx : isIdChar x with
    | false => rfl
    | true =>
      have := hlong (id ++ [x]) xs (by simp) (grammar_append_idChar hid hx)
      simp at this

theorem parseZettelId_grammar_append {id rest : QString} (hid : id ∈ zettelGrammar)
    (hrest : ∀ c, rest.head? = some c → isIdChar c = false) :
    parseZettelId (id ++ rest) =
      { id := id, title := titleAfterMatch rest, isValid := true } := by
  have hr : ∀ c, (rest.rdropWhile isSpace).head? = some c → isIdChar c = false :=
    fun c hc => hrest c (rdropWhile_head isSpace rest c hc)
  unfold parseZettelId
  simp only [trimmed_grammar_append hid, zettelIdRegexMatch_append hid hr, trimmed_rdropWhile,
    isValidZettelId_of_grammar hid, titleAfterMatch]
  cases h : trimmed rest with
  | nil => simp [startsWithChar, trimmed, List.rdropWhile_nil]
  | cons c r =>
    by_cases hc : c = '-' ∨ c = ':'
    · rcases hc with hc | hc <;> simp [startsWithChar, hc]
    · have h1 : c ≠ '-' := fun h => hc (Or.inl h)
      have h2 : c ≠ ':' := fun h => hc (Or.inr h)
      simp [startsWithChar, h1, h2]

theorem begins_with_grammar_iff (s : QString) :
    (∃ id rest, s = id ++ rest ∧ id ∈ zettelGrammar) ↔
      ∃ d t, s = d :: t ∧ reDigit d = true := by
  constructor
  · rintro ⟨id, rest, rfl, hid⟩
    obtain ⟨d, t, rfl, hd, -⟩ := (mem_zettelGrammar_iff _).mp hid
    exact ⟨d, t ++ rest, rfl, hd⟩
  · rintro ⟨d, t, rfl, hd⟩
    exact ⟨[d], t, rfl, (mem_zettelGrammar_iff _).mpr ⟨d, [], rfl, hd, by simp⟩⟩

/-- A text that begins with a word of the grammar has a longest such
beginning. -/
theorem exists_longest_match (text : QString)
    (h : ∃ id rest, text = id ++ rest ∧ id ∈ zettelGrammar) :
    ∃ id rest, IsLongestIdMatch text id rest := by
  obtain ⟨d, t, rfl, hd⟩ := (begins_with_grammar_iff text).mp h
  refine ⟨d :: t.takeWhile isIdChar, t.dropWhile isIdChar, ?_⟩
  have := isLongestIdMatch_of_head (d :: t.takeWhile isIdChar) (t.dropWhile isIdChar)
    ((mem_zettelGrammar_iff _).mpr ⟨d, _, rfl, hd, fun x hx => List.mem_takeWhile_imp hx⟩)
    (dropWhile_head_false isIdChar t)
  simpa using this

/-- C5 (`isValidZettelId` against the anchored grammar). The string made of `1`
and a line feed is not a word of `digit+ (letter+ digit*)*`, its last
character is consumed by no part of the grammar, and `isValidZettelId`
accepts it: the `$` of the pattern holds before a final line feed. -/
theorem isValidZettelId_accepts_final_line_feed :
    isValidZettelId ['1', LF] = true ∧ ['1', LF] ∉ zettelGrammar := by
  refine ⟨by decide, ?_⟩
  intro h
  obtain ⟨d, t, h1, -, ht⟩ := (mem_zettelGrammar_iff _).mp h
  injection h1 with h1 h2
  subst h2
  have := ht LF (by simp)
  rw [isIdChar_LF] at this
  cases this

/-- C6 (`parseZettelId` on a text that begins with an identifier). When `id`
is the longest beginning of `text` that is a word of the grammar and `rest` is
what follows it, `parseZettelId text` is valid, its id is `id`, and its title
is `rest` trimmed, without one leading `-` or `:`, trimmed again. -/
theorem parseZettelId_of_longest_match (text id rest : QString)
    (h : IsLongestIdMatch text id rest) :
    parseZettelId text = { id := id, title := titleAfterMatch rest, isValid := true } := by
  have hrest := head_not_idChar_of_longest h
  obtain ⟨rfl, hid, -⟩ := h
  exact parseZettelId_grammar_append hid hrest

/-- Witness of C6: `parse("1a2 - Title")` has id `1a2`, title `Title` and is
valid; a second separator stays in the title. -/
theorem parseZettelId_of_longest_match_witness :
    parseZettelId "1a2 - Title".toList =
        { id := "1a2".toList, title := "Title".toList, isValid := true } ∧
      parseZettelId "7: - x".toList =
        { id := "7".toList, title := "- x".toList, isValid := true } :=
  ⟨parseZettelId_of_longest_match "1a2 - Title".toList "1a2".toList " - Title".toList
      (isLongestIdMatch_of_head "1a2".toList " - Title".toList
        ((mem_zettelGrammar_iff _).mpr ⟨'1', "a2".toList, rfl, by decide, by decide⟩)
        (by decide)),
    parseZettelId_of_longest_match "7: - x".toList "7".toList ": - x".toList
      (isLongestIdMatch_of_head "7".toList ": - x".toList
        ((mem_zettelGrammar_iff _).mpr ⟨'7', [], rfl, by decide, by decide⟩)
        (by decide))⟩

/-- Counterexample to C7 as stated: the text made of a space and `1` does not
begin with a word of the grammar, and `parseZettelId` finds the valid id `1`
in it, because it trims the text before it matches. -/
theorem parseZettelId_leading_space :
    (¬ ∃ id rest, " 1".toList = id ++ rest ∧ id ∈ zettelGrammar) ∧
      parseZettelId " 1".toList = { id := "1".toList, title := [], isValid := true } := by
  refine ⟨?_, by decide⟩
  rw [begins_with_grammar_iff]
  rintro ⟨d, t, h, hd⟩
  injection h with h1 h2
  subst h1
  revert hd
  decide

/-- C7, amended (`parseZettelId` without a match). When the trimmed text does
not begin with a word of the grammar, `parseZettelId` returns the invalid
record with empty id and empty title. -/
theorem parseZettelId_no_match (text : QString)
    (h : ¬ ∃ id rest, trimmed text = id ++ rest ∧ id ∈ zettelGrammar) :
    parseZettelId text = { id := [], title := [], isValid := false } := by
  rw [begins_with_grammar_iff] at h
  unfold parseZettelId
  cases ht : trimmed text with
  | nil => simp [zettelIdRegexMatch_nil]
  | cons c t =>
    cases hc : reDigit c with
    | false => simp [zettelIdRegexMatch_cons_nondigit c t hc]
    | true => exact absurd ⟨c, t, ht, hc⟩ h

/-- Witness of C7: `parse("abc")` is invalid. -/
theorem parseZettelId_no_match_witness :
    parseZettelId "abc".toList = { id := [], title := [], isValid := false } :=
  parseZettelId_no_match "abc".toList (by
    rw [begins_with_grammar_iff]
    rintro ⟨d, t, h, hd⟩
    have h0 : trimmed "abc".toList = "abc".toList := by decide
    rw [h0] at h
    injection h with h1 h2
    subst h1
    revert hd
    decide)

/-! ## Searching for an unused candidate -/

theorem find?_range_map (q : QString → Bool) (n : Nat) :
    ∀ (f : Nat → QString) (k : Nat), k < n → (∀ j, j < k → q (f j) = false) →
      q (f k) = true → ((List.range n).map f).find? q = some (f k) := by
  induction n with
  | zero => intro f k hk; omega
  | succ n ih =>
    intro f k hk hlt hq
    rw [List.range_succ_eq_map, List.map_cons, List.map_map]
    cases k with
    | zero => simp [List.find?_cons, hq]
    | succ k =>
      rw [List.find?_cons, hlt 0 (Nat.succ_pos k)]
      exact ih (f ∘ Nat.succ) k (by omega) (fun j hj => hlt (j + 1) (by omega)) hq

theorem find?_range_map_none (q : QString → Bool) (n : Nat) (f : Nat → QString)
    (h : ∀ j, j < n → q (f j) = false) : ((List.range n).map f).find? q = none := by
  rw [List.find?_eq_none]
  intro x hx
  obtain ⟨j, hj, rfl⟩ := List.mem_map.mp hx
  simp [h j (List.mem_range.mp hj)]

theorem firstUnused_cases (ids cands : List QString) :
    firstUnused ids cands = [] ∨
      (firstUnused ids cands ∈ cands ∧ firstUnused ids cands ∉ ids) := by
  unfold firstUnused
  cases h : cands.find? (fun c => !ids.contains c) with
  | none => left; rfl
  | some c =>
    right
    refine ⟨List.mem_of_find?_eq_some h, ?_⟩
    have := List.find?_some h
    simpa using this

theorem letter_candidates (p : QString) :
    lettersAZ.map (fun c => p ++ [c]) =
      (List.range 26).map (fun j => p ++ [Char.ofNat (97 + j)]) := by
  simp [lettersAZ, List.map_map, Function.comp_def]

theorem number_candidates (p : QString) :
    numbers1To999.map (fun (i : Int) => p ++ number i) =
      (List.range 999).map (fun (j : Nat) => p ++ number ((j : Int) + 1)) := by
  simp [numbers1To999, List.map_map, Function.comp_def]

/-! ## Decimal digits -/

theorem reDigit_digitChar (d : Nat) (hd : d < 10) : reDigit (digitChar d) = true := by
  interval_cases d <;> decide

theorem natDigits_digits (fuel n : Nat) : ∀ c ∈ natDigits fuel n, reDigit c = true := by
  induction fuel generalizing n with
  | zero => intro c hc; simp [natDigits] at hc
  | succ fuel ih =>
    intro c hc
    unfold natDigits at hc
    split at hc
    · rename_i h
      rw [List.mem_singleton.mp hc]; exact reDigit_digitChar n h
    · rcases List.mem_append.mp hc with h | h
      · exact ih _ c h
      · rw [List.mem_singleton.mp h]; exact reDigit_digitChar _ (Nat.mod_lt _ (by omega))

theorem number_natCast (n : Nat) : number (n : Int) = natDigits (n + 1) n := by
  unfold number
  have : ¬ ((n : Int) < 0) := by omega
  simp [this]

theorem number_natCast_ne_nil (n : Nat) : number (n : Int) ≠ [] := by
  rw [number_natCast]
  unfold natDigits
  split
  · exact List.cons_ne_nil _ _
  · exact List.append_ne_nil_of_right_ne_nil _ (List.cons_ne_nil _ _)

theorem number_natCast_idChars (n : Nat) : ∀ c ∈ number (n : Int), isIdChar c = true := by
  intro c hc
  rw [number_natCast] at hc
  simp [isIdChar, natDigits_digits _ _ c hc]

theorem grammar_append_idChars {w : QString} (hw : w ∈ zettelGrammar) (sfx : QString)
    (h : ∀ c ∈ sfx, isIdChar c = true) : w ++ sfx ∈ zettelGrammar := by
  obtain ⟨d, t, rfl, hd, ht⟩ := (mem_zettelGrammar_iff _).mp hw
  refine (mem_zettelGrammar_iff _).mpr ⟨d, t ++ sfx, rfl, hd, ?_⟩
  intro c hc
  rcases List.mem_append.mp hc with h1 | h1
  · exact ht c h1
  · exact h c h1

theorem isIdChar_letter (j : Nat) (hj : j < 26) : isIdChar (Char.ofNat (97 + j)) = true := by
  interval_cases j <;> decide

/-! ## Child generation -/

/-- The result of `generateChildZettelId` is empty, or it is the parent,
accepted by `isValidZettelId`, followed by identifier characters, and it is not
among the existing identifiers. -/
theorem generateChildZettelId_cases (p : QString) (ws : Workspace) :
    generateChildZettelId p ws = [] ∨
      (isValidZettelId p = true ∧ generateChildZettelId p ws ∉ getAllZettelIds ws ∧
        ∃ sfx, sfx ≠ [] ∧ (∀ c ∈ sfx, isIdChar c = true) ∧
          generateChildZettelId p ws = p ++ sfx) := by
  unfold generateChildZettelId
  cases hv : isValidZettelId p with
  | false => left; simp
  | true =>
    simp only [Bool.not_true, Bool.false_eq_true, if_false]
    split
    · split
      · rename_i h
        right
        refine ⟨trivial, by simpa using h, ['a'], by simp, ?_, rfl⟩
        intro c hc; rw [List.mem_singleton.mp hc]; decide
      · rcases firstUnused_cases (getAllZettelIds ws) (lettersAZ.map (fun c => p ++ [c]))
          with h | ⟨h1, h2⟩
        · left; exact h
        · right
          refine ⟨trivial, h2, ?_⟩
          rw [letter_candidates] at h1 ⊢
          obtain ⟨j, hj, hj2⟩ := List.mem_map.mp h1
          refine ⟨[Char.ofNat (97 + j)], by simp, ?_, hj2.symm⟩
          intro c hc
          rw [List.mem_singleton.mp hc]
          exact isIdChar_letter j (List.mem_range.mp hj)
    · split
      · rename_i h
        right
        refine ⟨trivial, by simpa using h, ['1'], by simp, ?_, rfl⟩
        intro c hc; rw [List.mem_singleton.mp hc]; decide
      · rcases firstUnused_cases (getAllZettelIds ws) (numbers1To999.map (fun (i : Int) => p ++ number i))
          with h | ⟨h1, h2⟩
        · left; exact h
        · right
          refine ⟨trivial, h2, ?_⟩
          rw [number_candidates] at h1 ⊢
          obtain ⟨j, hj, hj2⟩ := List.mem_map.mp h1
          have e : (j : Int) + 1 = Nat.cast (j + 1) := by simp
          rw [e] at hj2
          refine ⟨_, ?_, ?_, hj2.symm⟩
          · exact number_natCast_ne_nil (j + 1)
          · exact number_natCast_idChars (j + 1)

theorem firstUnused_congr {a b : List QString} (h : ∀ x, x ∈ a ↔ x ∈ b)
    (cands : List QString) : firstUnused a cands = firstUnused b cands := by
  have e : (fun c => !a.contains c) = (fun c => !b.contains c) := by
    funext c
    have := h c
    by_cases hc : c ∈ a
    · simp [hc, this.mp hc]
    · have hb : c ∉ b := fun hb => hc (this.mpr hb)
      simp [hc, hb]
  unfold firstUnused
  rw [e]

theorem reDigit_of_reLower {c : Char} (h : reLower c = true) : reDigit c = false := by
  simp only [reLower, decide_eq_true_eq] at h
  simp only [reDigit, decide_eq_false_iff_not]
  omega

/-- For a parent that ends in a digit, the result is the first of the 26
letter candidates that is not an existing identifier. -/
theorem generateChildZettelId_digit_parent (p : QString) (ws : Workspace) (c : Char)
    (hv : isValidZettelId p = true) (hl : p.getLast? = some c) (hd : reDigit c = true) :
    generateChildZettelId p ws =
      firstUnused (getAllZettelIds ws)
        ((List.range 26).map (fun j => p ++ [Char.ofNat (97 + j)])) := by
  unfold generateChildZettelId
  simp only [hv, hl, isDigit, hd, Bool.not_true, Bool.false_eq_true, if_false, if_true,
    letter_candidates]
  split
  · rename_i h
    unfold firstUnused
    rw [find?_range_map _ 26 _ 0 (by omega) (fun j hj => absurd hj (Nat.not_lt_zero j)) h]
  · rfl

/-- For a parent that does not end in a digit, the result is the first of the
999 number candidates that is not an existing identifier. -/
theorem generateChildZettelId_letter_parent (p : QString) (ws : Workspace) (c : Char)
    (hv : isValidZettelId p = true) (hl : p.getLast? = some c) (hd : reDigit c = false) :
    generateChildZettelId p ws =
      firstUnused (getAllZettelIds ws)
        ((List.range 999).map (fun (j : Nat) => p ++ number ((j : Int) + 1))) := by
  unfold generateChildZettelId
  simp only [hv, hl, isDigit, hd, Bool.not_true, Bool.false_eq_true, if_false,
    number_candidates]
  split
  · rename_i h
    unfold firstUnused
    rw [find?_range_map _ 999 _ 0 (by omega) (fun j hj => absurd hj (Nat.not_lt_zero j)) h]
    rfl
  · rfl

theorem getLast?_of_grammar {p : QString} (hp : p ∈ zettelGrammar) :
    ∃ c, p.getLast? = some c := by
  obtain ⟨d, t, rfl, -, -⟩ := (mem_zettelGrammar_iff _).mp hp
  cases h : (d :: t).getLast? with
  | none => simp at h
  | some c => exact ⟨c, rfl⟩

/-- The result of `generateChildZettelId` depends on the workspace only
through membership in the list of existing identifiers. -/
theorem generateChildZettelId_congr (p : QString) (ws ws2 : Workspace)
    (h : ∀ x, x ∈ getAllZettelIds ws2 ↔ x ∈ getAllZettelIds ws) :
    generateChildZettelId p ws2 = generateChildZettelId p ws := by
  have e : ∀ x, (getAllZettelIds ws2).contains x = (getAllZettelIds ws).contains x := by
    intro x
    have := h x
    by_cases hx : x ∈ getAllZettelIds ws2
    · simp [hx, this.mp hx]
    · have hb : x ∉ getAllZettelIds ws := fun hb => hx (this.mpr hb)
      simp [hx, hb]
  unfold generateChildZettelId
  simp only [e, firstUnused_congr h]

theorem one_mem_zettelGrammar : "1".toList ∈ zettelGrammar :=
  (mem_zettelGrammar_iff _).mpr ⟨'1', [], rfl, by decide, by decide⟩

theorem getAllZettelIds_workspaceThree :
    getAllZettelIds workspaceThree = ["1".toList, "1a".toList, "1b".toList] := by
  decide

/-- C1 (`generateChildZettelId` returns the lowest unused suffix). For a
parent `p` of the grammar: when `p` ends in a digit and the `k`-th letter is
the first with `p` + letter not an existing identifier, the result is `p` +
that letter; when `p` ends in a letter and `k` is the first of 1..999 with
`p` + `k` not an existing identifier, the result is `p` + `k`; and two
workspaces with the same identifiers, in any order, give the same result. -/
theorem generateChildZettelId_lowest_unused (p : QString) (ws : Workspace)
    (hp : p ∈ zettelGrammar) :
    (∀ c, p.getLast? = some c → reDigit c = true →
      ∀ k, k < 26 →
        (∀ j, j < k → p ++ [Char.ofNat (97 + j)] ∈ getAllZettelIds ws) →
        p ++ [Char.ofNat (97 + k)] ∉ getAllZettelIds ws →
        generateChildZettelId p ws = p ++ [Char.ofNat (97 + k)]) ∧
    (∀ c, p.getLast? = some c → reLower c = true →
      ∀ k : Nat, 1 ≤ k → k ≤ 999 →
        (∀ j : Nat, 1 ≤ j → j < k → p ++ number j ∈ getAllZettelIds ws) →
        p ++ number k ∉ getAllZettelIds ws →
        generateChildZettelId p ws = p ++ number k) ∧
    (∀ ws2, (∀ x, x ∈ getAllZettelIds ws2 ↔ x ∈ getAllZettelIds ws) →
      generateChildZettelId p ws2 = generateChildZettelId p ws) := by
  have hv := isValidZettelId_of_grammar hp
  refine ⟨?_, ?_, fun ws2 h => generateChildZettelId_congr p ws ws2 h⟩
  · intro c hl hd k hk hbefore hfree
    rw [generateChildZettelId_digit_parent p ws c hv hl hd]
    unfold firstUnused
    rw [find?_range_map _ 26 _ k hk (fun j hj => by simpa using hbefore j hj)
      (by simpa using hfree)]
  · intro c hl hlow k hk1 hk2 hbefore hfree
    rw [generateChildZettelId_letter_parent p ws c hv hl (reDigit_of_reLower hlow)]
    have ek : ((k - 1 : Nat) : Int) + 1 = (k : Int) := by omega
    unfold firstUnused
    rw [find?_range_map _ 999 _ (k - 1) (by omega) ?_ (by rw [ek]; simpa using hfree)]
    · simp only [ek]
    · intro j hj
      have ej : (j : Int) + 1 = ((j + 1 : Nat) : Int) := by simp
      have := hbefore (j + 1) (by omega) (by omega)
      rw [ej]
      simpa using this

/-- Witness of C1: with the identifiers `1`, `1a` and `1b` present, the child
of `1` is `1c`. -/
theorem generateChildZettelId_lowest_unused_witness :
    generateChildZettelId "1".toList workspaceThree = "1c".toList :=
  (generateChildZettelId_lowest_unused "1".toList workspaceThree one_mem_zettelGrammar).1
    '1' rfl (by decide) 2 (by decide)
    (by rw [getAllZettelIds_workspaceThree]; decide)
    (by rw [getAllZettelIds_workspaceThree]; decide)

/-- C2 (a generated child is new and valid). For a parent `p` of the grammar,
a non-empty result of `generateChildZettelId` is accepted by `isValidZettelId`
and is not among the identifiers `getAllZettelIds` finds in the same
workspace. -/
theorem generateChildZettelId_valid_and_new (p : QString) (ws : Workspace)
    (hp : p ∈ zettelGrammar) (hc : generateChildZettelId p ws ≠ []) :
    isValidZettelId (generateChildZettelId p ws) = true ∧
      generateChildZettelId p ws ∉ getAllZettelIds ws := by
  rcases generateChildZettelId_cases p ws with h | ⟨-, hnew, sfx, -, hsfx, heq⟩
  · exact absurd h hc
  · refine ⟨?_, hnew⟩
    rw [heq]
    exact isValidZettelId_of_grammar (grammar_append_idChars hp sfx hsfx)

/-- Witness of C2: the child `1c` generated for parent `1`. -/
theorem generateChildZettelId_valid_and_new_witness :
    isValidZettelId (generateChildZettelId "1".toList workspaceThree) = true ∧
      generateChildZettelId "1".toList workspaceThree ∉ getAllZettelIds workspaceThree :=
  generateChildZettelId_valid_and_new "1".toList workspaceThree one_mem_zettelGrammar
    (by decide)

theorem generateChildZettelId_of_exhausted (p : QString) (ws : Workspace)
    (hp : p ∈ zettelGrammar) (hex : ChildSpaceExhausted p (getAllZettelIds ws)) :
    generateChildZettelId p ws = [] := by
  have hv := isValidZettelId_of_grammar hp
  rcases hex with ⟨c, hl, hd, hall⟩ | ⟨c, hl, hlow, hall⟩
  · rw [generateChildZettelId_digit_parent p ws c hv hl hd]
    unfold firstUnused
    rw [find?_range_map_none _ 26 _ (fun j hj => by simpa using hall j hj)]
  · rw [generateChildZettelId_letter_parent p ws c hv hl (reDigit_of_reLower hlow)]
    unfold firstUnused
    rw [find?_range_map_none _ 999 _ ?_]
    intro j hj
    have ej : (j : Int) + 1 = ((j + 1 : Nat) : Int) := by simp
    have := hall (j + 1) (by omega) (by omega)
    rw [ej]
    simpa using this

theorem generateChildZettelId_of_invalid (p : QString) (ws : Workspace)
    (h : isValidZettelId p = false) : generateChildZettelId p ws = [] := by
  simp [generateChildZettelId, h]

theorem childSpaceExhausted_workspaceLetters :
    ChildSpaceExhausted "1".toList (getAllZettelIds workspaceLetters) :=
  Or.inl ⟨'1', rfl, by decide, by decide⟩

/-- C8 (child-space exhaustion). For a parent `p` of the grammar whose
candidates are all existing identifiers, `generateChildZettelId` returns the
empty string, which is not an identifier. -/
theorem generateChildZettelId_exhausted (p : QString) (ws : Workspace)
    (hp : p ∈ zettelGrammar) (hex : ChildSpaceExhausted p (getAllZettelIds ws)) :
    generateChildZettelId p ws = [] ∧
      isValidZettelId (generateChildZettelId p ws) = false := by
  rw [generateChildZettelId_of_exhausted p ws hp hex]
  exact ⟨rfl, by decide⟩

/-- Witness of C8: with `1a` to `1z` present, the parent `1` has no child
left. -/
theorem generateChildZettelId_exhausted_witness :
    generateChildZettelId "1".toList workspaceLetters = [] ∧
      isValidZettelId (generateChildZettelId "1".toList workspaceLetters) = false :=
  generateChildZettelId_exhausted "1".toList workspaceLetters one_mem_zettelGrammar
    childSpaceExhausted_workspaceLetters

/-- Counterexample to C9 as stated: the parent `a` is not a word of the
grammar, the parent `1` is and its child space is exhausted in the workspace
with `1a.md` to `1z.md`, and `generateChildZettelId` returns the same value
for both. -/
theorem generateChildZettelId_failures_same_value :
    "a".toList ∉ zettelGrammar ∧ isValidZettelId "a".toList = false ∧
      "1".toList ∈ zettelGrammar ∧
      ChildSpaceExhausted "1".toList (getAllZettelIds workspaceLetters) ∧
      generateChildZettelId "a".toList workspaceLetters =
        generateChildZettelId "1".toList workspaceLetters := by
  refine ⟨?_, by decide, one_mem_zettelGrammar, childSpaceExhausted_workspaceLetters, ?_⟩
  · intro h
    have := isValidZettelId_of_grammar h
    revert this
    decide
  · rw [generateChildZettelId_of_exhausted _ _ one_mem_zettelGrammar
      childSpaceExhausted_workspaceLetters]
    exact generateChildZettelId_of_invalid _ _ (by decide)

/-- C9, amended (both failures are the empty string). For a parent `p1` that
`isValidZettelId` rejects and a parent `p2` of the grammar whose child space is
exhausted, `generateChildZettelId` returns the empty string for both, in
whatever workspaces; the returned value does not tell the two apart. -/
theorem generateChildZettelId_failures_empty (p1 p2 : QString) (ws1 ws2 : Workspace)
    (h1 : isValidZettelId p1 = false) (h2 : p2 ∈ zettelGrammar)
    (hex : ChildSpaceExhausted p2 (getAllZettelIds ws2)) :
    generateChildZettelId p1 ws1 = [] ∧ generateChildZettelId p2 ws2 = [] :=
  ⟨generateChildZettelId_of_invalid p1 ws1 h1, generateChildZettelId_of_exhausted p2 ws2 h2 hex⟩

/-- Witness of C9, amended: the invalid parent `1-b` and the exhausted
parent `1`. -/
theorem generateChildZettelId_failures_empty_witness :
    generateChildZettelId "1-b".toList workspaceThree = [] ∧
      generateChildZettelId "1".toList workspaceLetters = [] :=
  generateChildZettelId_failures_empty "1-b".toList "1".toList workspaceThree workspaceLetters
    (by decide) one_mem_zettelGrammar childSpaceExhausted_workspaceLetters

/-- With a non-empty parent `generateNextZettelId` is `generateChildZettelId`,
and it is empty when `isValidZettelId` rejects the parent. -/
theorem generateNextZettelId_of_parent (p : QString) (ws : Workspace) (hp : p ≠ []) :
    generateNextZettelId p ws = generateChildZettelId p ws ∧
      (isValidZettelId p = false → generateNextZettelId p ws = []) := by
  have e : generateNextZettelId p ws = generateChildZettelId p ws := by
    simp [generateNextZettelId, hp]
  exact ⟨e, fun h => e ▸ generateChildZettelId_of_invalid p ws h⟩

/-- C10 (an invalid parent yields no identifier). The parent made of `2a` and
a line feed is not a word of the grammar, and `generateNextZettelId` returns
a non-empty string for it, the parent followed by `1`: `isValidZettelId`
accepts the parent because `$` holds before a final line feed. -/
theorem generateNextZettelId_final_line_feed :
    ['2', 'a', LF] ∉ zettelGrammar ∧
      generateNextZettelId ['2', 'a', LF] workspaceThree = ['2', 'a', LF, '1'] := by
  refine ⟨?_, by decide⟩
  intro h
  obtain ⟨d, t, h1, -, ht⟩ := (mem_zettelGrammar_iff _).mp h
  injection h1 with h1 h2
  subst h2
  have := ht LF (by simp)
  rw [isIdChar_LF] at this
  cases this

/-- C3 (top-level numbering for numbers of any magnitude). In the workspace
whose only note is `3000000000.md` the only identifier is `3000000000`, the
largest value plus one is 3000000001, and `generateNextZettelId` returns
`1`: `toInt` yields 0 for a value that does not fit an `int`. -/
theorem generateNextZettelId_large_number :
    getAllZettelIds workspaceLarge = ["3000000000".toList] ∧
      number ((topLevelMax (getAllZettelIds workspaceLarge) + 1 : Nat) : Int) =
        "3000000001".toList ∧
      generateNextZettelId [] workspaceLarge = "1".toList := by
  decide

/-- C4 (top-level numbering only increases). In the workspace with the notes
`1.md`, `2.md` and `9999999999 Log.md`, `generateNextZettelId` returns `3`,
whose value is below that of the existing identifier `9999999999`. -/
theorem generateNextZettelId_not_above_large :
    "9999999999".toList ∈ getAllZettelIds workspaceMixed ∧
      isAllDigits "9999999999".toList = true ∧
      generateNextZettelId [] workspaceMixed = "3".toList ∧
      decimalValue "3".toList < decimalValue "9999999999".toList := by
  decide

/-! ## The enumerated identifiers are words of the grammar -/

theorem zettelIdRegexMatch_some (s cap rest : QString)
    (h : zettelIdRegexMatch s = some (cap, rest)) :
    cap ∈ zettelGrammar ∧ s = cap ++ rest := by
  cases s with
  | nil => rw [zettelIdRegexMatch_nil] at h; cases h
  | cons c t =>
    cases hc : reDigit c with
    | false => rw [zettelIdRegexMatch_cons_nondigit c t hc] at h; cases h
    | true =>
      rw [zettelIdRegexMatch_cons_digit c t hc] at h
      injection h with h
      injection h with h1 h2
      subst h1 h2
      refine ⟨(mem_zettelGrammar_iff _).mpr
        ⟨c, _, rfl, hc, fun x hx => List.mem_takeWhile_imp hx⟩, ?_⟩
      simp

theorem mem_removeDuplicates (l : List QString) (x : QString) :
    x ∈ removeDuplicates l ↔ x ∈ l := by
  induction l with
  | nil => simp [removeDuplicates]
  | cons y ys ih =>
    simp only [removeDuplicates, List.mem_cons, List.mem_filter, ih]
    by_cases hxy : x = y
    · simp [hxy]
    · simp [hxy]

theorem zettelIdsOfFile_grammar (f : NoteFile) :
    ∀ x ∈ zettelIdsOfFile f, x ∈ zettelGrammar := by
  intro x hx
  unfold zettelIdsOfFile at hx
  simp only at hx
  split at hx
  · rw [List.mem_singleton] at hx
    subst hx
    unfold extractZettelIdFromFileName
    cases h : zettelIdRegexMatch (baseName f.path) with
    | none =>
      rename_i hne
      simp [extractZettelIdFromFileName, h] at hne
    | some r => exact (zettelIdRegexMatch_some _ r.1 r.2 h).1
  · split at hx
    · rename_i text _
      split at hx
      · rw [List.mem_singleton] at hx
        subst hx
        unfold parseZettelId
        simp only
        cases h : zettelIdRegexMatch (trimmed (trimmed (readLine text))) with
        | none =>
          rename_i hv
          simp [parseZettelId, h] at hv
        | some r => exact (zettelIdRegexMatch_some _ r.1 r.2 h).1
      · simp at hx
    · simp at hx

/-- Every identifier `getAllZettelIds` returns is a word of the grammar. -/
theorem getAllZettelIds_grammar (ws : Workspace) :
    ∀ x ∈ getAllZettelIds ws, x ∈ zettelGrammar := by
  intro x hx
  unfold getAllZettelIds at hx
  rw [mem_removeDuplicates] at hx
  generalize noteFiles ws = fs at hx
  induction fs with
  | nil => simp [collectZettelIds] at hx
  | cons f fs ih =>
    simp only [collectZettelIds, List.mem_append] at hx
    rcases hx with h | h
    · exact zettelIdsOfFile_grammar f x h
    · exact ih h

/-! ## Top-level numbering within the range of `int` -/

theorem isIdChar_not_LF {x : QString} (hx : x ∈ zettelGrammar) : LF ∉ x := by
  obtain ⟨d, t, rfl, hd, ht⟩ := (mem_zettelGrammar_iff _).mp hx
  intro h
  rcases List.mem_cons.mp h with h | h
  · rw [← h] at hd; revert hd; decide
  · have := ht LF h
    rw [isIdChar_LF] at this
    cases this

/-- On a word of the grammar `^(\d+)$` matches exactly when the word consists
of digits only, and then captures all of it. -/
theorem topLevelRegexMatch_grammar {x : QString} (hx : x ∈ zettelGrammar) :
    topLevelRegexMatch x = if isAllDigits x = true then some x else none := by
  have hLF := isIdChar_not_LF hx
  obtain ⟨d, t, rfl, hd, -⟩ := (mem_zettelGrammar_iff _).mp hx
  unfold topLevelRegexMatch
  simp only [List.takeWhile_cons_of_pos hd, List.dropWhile_cons_of_pos hd]
  by_cases hall : ∀ c ∈ t, reDigit c = true
  · have h1 : t.takeWhile reDigit = t := List.takeWhile_eq_self_iff.mpr hall
    have h2 : t.dropWhile reDigit = [] := List.dropWhile_eq_nil_iff.mpr hall
    have h3 : isAllDigits (d :: t) = true := by
      simp only [isAllDigits, List.isEmpty_cons, Bool.not_false, Bool.true_and, List.all_cons,
        hd, List.all_eq_true]
      exact hall
    simp [h1, h2, h3, dollarHolds]
  · have h3 : isAllDigits (d :: t) = false := by
      cases h : isAllDigits (d :: t) with
      | false => rfl
      | true =>
        exfalso; apply hall
        simp only [isAllDigits, List.isEmpty_cons, Bool.not_false, Bool.true_and, List.all_cons,
          hd, List.all_eq_true] at h
        exact h
    have h2 : dollarHolds (t.dropWhile reDigit) = false := by
      cases h : dollarHolds (t.dropWhile reDigit) with
      | false => rfl
      | true =>
        exfalso
        rcases (dollarHolds_iff _).mp h with h | h
        · exact hall (List.dropWhile_eq_nil_iff.mp h)
        · apply hLF
          have : LF ∈ t.dropWhile reDigit := by rw [h]; simp
          exact List.mem_cons_of_mem _ ((List.dropWhile_sublist _).subset this)
    simp [h2, h3]

theorem maxTopLevel_foldl (ids : List QString)
    (hg : ∀ x ∈ ids, x ∈ zettelGrammar)
    (hb : ∀ x ∈ ids, isAllDigits x = true → decimalValue x ≤ 2147483647) (acc : Int)
    (hacc : 0 ≤ acc) :
    ids.foldl
        (fun maxNum id =>
          match topLevelRegexMatch id with
          | some captured => max maxNum (toInt captured)
          | none => maxNum)
        acc = max acc (topLevelMax ids : Int) := by
  induction ids generalizing acc with
  | nil => simp [topLevelMax, hacc]
  | cons x xs ih =>
    have hx := hg x (List.mem_cons_self _ _)
    have ih2 := ih (fun y hy => hg y (List.mem_cons_of_mem _ hy))
      (fun y hy => hb y (List.mem_cons_of_mem _ hy))
    rw [List.foldl_cons, topLevelRegexMatch_grammar hx]
    by_cases hd : isAllDigits x = true
    · have hv := hb x (List.mem_cons_self _ _) hd
      have ht : toInt x = (decimalValue x : Int) := by
        unfold toInt INT_MAX
        rw [if_pos (by omega)]
      simp only [hd, if_true, ht]
      rw [ih2 _ (le_max_of_le_left hacc)]
      simp only [topLevelMax, List.filter_cons, hd, if_true, List.map_cons, List.foldr_cons]
      push_cast
      rw [max_assoc]
    · simp only [hd, Bool.false_eq_true, if_false]
      rw [ih2 _ hacc]
      simp [topLevelMax, List.filter_cons, hd]

/-- When every all-digit identifier of the workspace has a value below
2147483647, the largest `int`, `generateNextZettelId` with an empty parent
returns the decimal string of the largest such value plus one. -/
theorem generateNextZettelId_top_level (ws : Workspace)
    (hb : ∀ x ∈ getAllZettelIds ws, isAllDigits x = true → decimalValue x < 2147483647) :
    generateNextZettelId [] ws =
      number ((topLevelMax (getAllZettelIds ws) + 1 : Nat) : Int) := by
  have hmax : topLevelMax (getAllZettelIds ws) < 2147483647 := by
    have : ∀ ids : List QString,
        (∀ x ∈ ids, isAllDigits x = true → decimalValue x < 2147483647) →
          topLevelMax ids < 2147483647 := by
      intro ids
      induction ids with
      | nil => intro _; simp [topLevelMax]
      | cons x xs ih =>
        intro h
        have h1 := ih (fun y hy => h y (List.mem_cons_of_mem _ hy))
        unfold topLevelMax at h1 ⊢
        by_cases hd : isAllDigits x = true
        · have := h x (List.mem_cons_self _ _) hd
          simp only [List.filter_cons, hd, if_true, List.map_cons, List.foldr_cons]
          exact max_lt this h1
        · simp only [List.filter_cons, hd]
          exact h1
    exact this _ hb
  unfold generateNextZettelId maxTopLevel
  simp only [if_true]
  rw [maxTopLevel_foldl _ (getAllZettelIds_grammar ws)
    (fun x hx hd => Nat.le_of_lt (hb x hx hd)) 0 (le_refl 0)]
  have e : intAdd (max 0 (topLevelMax (getAllZettelIds ws) : Int)) 1 =
      ((topLevelMax (getAllZettelIds ws) + 1 : Nat) : Int) := by
    have h0 : max 0 (topLevelMax (getAllZettelIds ws) : Int) =
        (topLevelMax (getAllZettelIds ws) : Int) := max_eq_right (by omega)
    rw [h0]
    unfold intAdd
    push_cast
    omega
  rw [e]

theorem decimalValue_concat (s : QString) (c : Char) :
    decimalValue (s ++ [c]) = decimalValue s * 10 + (c.toNat - 48) := by
  simp [decimalValue, List.foldl_append]

theorem digitChar_value (d : Nat) (hd : d < 10) : (digitChar d).toNat - 48 = d := by
  interval_cases d <;> decide

/-- Reading back the decimal digits of `n` gives `n`. -/
theorem decimalValue_natDigits (fuel n : Nat) (h : n < fuel) :
    decimalValue (natDigits fuel n) = n := by
  induction fuel generalizing n with
  | zero => omega
  | succ fuel ih =>
    unfold natDigits
    split
    · rename_i hn
      simp [decimalValue, digitChar_value n hn]
    · rw [decimalValue_concat, ih (n / 10) (by omega),
        digitChar_value _ (Nat.mod_lt _ (by omega))]
      omega

theorem decimalValue_number (n : Nat) : decimalValue (number (n : Int)) = n := by
  rw [number_natCast, decimalValue_natDigits _ _ (Nat.lt_succ_self n)]

theorem isAllDigits_number (n : Nat) : isAllDigits (number (n : Int)) = true := by
  have hne := number_natCast_ne_nil n
  have hd : ∀ c ∈ number (n : Int), reDigit c = true := by
    rw [number_natCast]; exact natDigits_digits _ _
  cases h : number (n : Int) with
  | nil => exact absurd h hne
  | cons c t =>
    rw [h] at hd
    simp only [isAllDigits, List.isEmpty_cons, Bool.not_false, Bool.true_and, List.all_eq_true]
    exact hd

theorem le_topLevelMax (ids : List QString) (x : QString) (hx : x ∈ ids)
    (hd : isAllDigits x = true) : decimalValue x ≤ topLevelMax ids := by
  induction ids with
  | nil => simp at hx
  | cons y ys ih =>
    unfold topLevelMax at ih ⊢
    by_cases hy : isAllDigits y = true
    · simp only [List.filter_cons, hy, if_true, List.map_cons, List.foldr_cons]
      rcases List.mem_cons.mp hx with h | h
      · rw [h]; exact le_max_left _ _
      · exact le_trans (ih h) (le_max_right _ _)
    · simp only [List.filter_cons, hy]
      rcases List.mem_cons.mp hx with h | h
      · rw [h] at hd; exact absurd hd hy
      · exact ih h

theorem topLevelMax_le (ids : List QString) (b : Nat)
    (h : ∀ x ∈ ids, isAllDigits x = true → decimalValue x ≤ b) : topLevelMax ids ≤ b := by
  induction ids with
  | nil => simp [topLevelMax]
  | cons y ys ih =>
    have h1 := ih (fun x hx => h x (List.mem_cons_of_mem _ hx))
    unfold topLevelMax at h1 ⊢
    by_cases hy : isAllDigits y = true
    · simp only [List.filter_cons, hy, if_true, List.map_cons, List.foldr_cons]
      exact max_le (h y (List.mem_cons_self _ _) hy) h1
    · simp only [List.filter_cons, hy]
      exact h1

/-- Within the range of `int` top-level numbering only increases: when every
all-digit identifier of `ws` has a value below 2147483646, the generated
identifier has a greater value than each of them and is not among the
identifiers, and generating again in a workspace `ws2` with these
identifiers and the generated one gives a still greater value. -/
theorem generateNextZettelId_increases (ws ws2 : Workspace)
    (hb : ∀ x ∈ getAllZettelIds ws, isAllDigits x = true → decimalValue x < 2147483646)
    (h2 : ∀ x, x ∈ getAllZettelIds ws2 ↔
      x ∈ getAllZettelIds ws ∨ x = generateNextZettelId [] ws) :
    (∀ x ∈ getAllZettelIds ws, isAllDigits x = true →
        decimalValue x < decimalValue (generateNextZettelId [] ws)) ∧
      generateNextZettelId [] ws ∉ getAllZettelIds ws ∧
      decimalValue (generateNextZettelId [] ws) <
        decimalValue (generateNextZettelId [] ws2) := by
  have e1 := generateNextZettelId_top_level ws
    (fun x hx hd => Nat.lt_trans (hb x hx hd) (by omega))
  have hm : topLevelMax (getAllZettelIds ws) ≤ 2147483645 :=
    topLevelMax_le _ _ (fun x hx hd => Nat.le_of_lt_succ (hb x hx hd))
  have hv1 : decimalValue (generateNextZettelId [] ws) = topLevelMax (getAllZettelIds ws) + 1 := by
    rw [e1, decimalValue_number]
  have hd1 : isAllDigits (generateNextZettelId [] ws) = true := by
    rw [e1]; exact isAllDigits_number _
  have hlt : ∀ x ∈ getAllZettelIds ws, isAllDigits x = true →
      decimalValue x < decimalValue (generateNextZettelId [] ws) := by
    intro x hx hd
    have := le_topLevelMax _ x hx hd
    omega
  have hb2 : ∀ x ∈ getAllZettelIds ws2, isAllDigits x = true → decimalValue x < 2147483647 := by
    intro x hx hd
    rcases (h2 x).mp hx with h | h
    · exact Nat.lt_trans (hb x h hd) (by omega)
    · rw [h, hv1]; omega
  have e2 := generateNextZettelId_top_level ws2 hb2
  refine ⟨hlt, ?_, ?_⟩
  · intro hmem
    exact Nat.lt_irrefl _ (hlt _ hmem hd1)
  · rw [e2, decimalValue_number]
    have := le_topLevelMax (getAllZettelIds ws2) _ ((h2 _).mpr (Or.inr rfl)) hd1
    omega

/-- The top-level identifiers `1`, `2` and `4` give `5`. -/
theorem generateNextZettelId_top_level_example :
    getAllZettelIds workspaceTop = ["1".toList, "2".toList, "4".toList] ∧
      generateNextZettelId [] workspaceTop = "5".toList :=
  ⟨by decide,
    (generateNextZettelId_top_level workspaceTop (by decide)).trans (by decide)⟩

/-! ## Resolution -/

theorem trimmed_head (s : QString) : ∀ c, (trimmed s).head? = some c → isSpace c = false :=
  fun c hc => dropWhile_head_false isSpace s c (rdropWhile_head isSpace _ c hc)

theorem trimmed_trimmed (s : QString) : trimmed (trimmed s) = trimmed s := by
  have h1 : (trimmed s).dropWhile isSpace = trimmed s :=
    (takeWhile_eq_nil_of_head (trimmed_head s)).2
  show ((trimmed s).dropWhile isSpace).rdropWhile isSpace = trimmed s
  rw [h1]
  exact List.rdropWhile_idempotent isSpace (s.dropWhile isSpace)

theorem parseZettelId_trimmed (s : QString) : parseZettelId (trimmed s) = parseZettelId s := by
  unfold parseZettelId
  rw [trimmed_trimmed]

theorem trimmed_dropWhile_of_space {q : Char → Bool} (hq : ∀ c, q c = true → isSpace c = true)
    (z : QString) : trimmed (z.dropWhile q) = trimmed z := by
  unfold trimmed
  rw [← dropWhile_refine hq z]

theorem isSpace_of_reSpace (c : Char) (h : reSpace c = true) : isSpace c = true := by
  simp only [reSpace, decide_eq_true_eq] at h
  simp only [isSpace, decide_eq_true_eq]
  omega

theorem normalizeTitle_trimmed (s : QString) : normalizeTitle (trimmed s) = normalizeTitle s := by
  unfold normalizeTitle
  rw [trimmed_trimmed]

theorem idRoundReturns_eq (token : QString) (f : NoteFile) :
    idRoundReturns token f = matchesById token f := by
  unfold idRoundReturns matchesById firstLineOf
  cases hc : f.content with
  | none =>
    have : (parseZettelId []).isValid = false := by decide
    simp only [this, Bool.false_and, Bool.or_false]
    cases h1 : List.isPrefixOf (token ++ [' ']) (baseName f.path) <;>
      cases h2 : baseName f.path == token <;> simp
  | some text =>
    simp only [parseZettelId_trimmed]
    cases h1 : List.isPrefixOf (token ++ [' ']) (baseName f.path) <;>
      cases h2 : baseName f.path == token <;> simp

theorem titleRoundReturns_eq (token : QString) (f : NoteFile) :
    titleRoundReturns (normalizeTitle token) f = matchesByTitle token f := by
  have hh : ∀ l : QString, startsWithChar l '#' = true →
      normalizeTitle (trimmed (removeHeadingMarker l)) = normalizeTitle (headingText l) := by
    intro l hl
    unfold removeHeadingMarker headingText
    rw [if_pos hl, normalizeTitle_trimmed]
    unfold normalizeTitle
    rw [trimmed_dropWhile_of_space isSpace_of_reSpace, trimmed_dropWhile_of_space (fun c h => h)]
  have hcomm : ∀ a b : QString, (a == b) = (b == a) := by
    intro a b
    by_cases h : a = b
    · simp [h]
    · have h2 : ¬ b = a := fun e => h e.symm
      simp [h, h2]
  unfold titleRoundReturns matchesByTitle firstLineOf
  cases hc : f.content with
  | none =>
    have : startsWithChar [] '#' = false := rfl
    simp only [this, Bool.false_and, Bool.or_false, hcomm (normalizeTitle token)]
    cases normalizeTitle (completeBaseName f.path) == normalizeTitle token <;> simp
  | some text =>
    simp only [hcomm (normalizeTitle token)]
    cases hs : startsWithChar (readLine text) '#' with
    | false =>
      cases normalizeTitle (completeBaseName f.path) == normalizeTitle token <;> simp
    | true =>
      rw [hh _ hs]
      cases normalizeTitle (completeBaseName f.path) == normalizeTitle token <;> simp

theorem noteFiles_path_ne_nil (ws : Workspace) (f : NoteFile) (hf : f ∈ noteFiles ws) :
    f.path ≠ [] := by
  have := (List.mem_filter.mp hf).2
  intro h
  rw [h] at this
  revert this
  decide

/-- A search loop over the note files that returns the path of the first file
passing `p`: what it returns. -/
theorem first_path_spec (p : NoteFile → Bool) (ws : Workspace) (r : QString)
    (hr : r = match (noteFiles ws).find? p with
      | some f => f.path
      | none => []) :
    (∀ pre f post, noteFiles ws = pre ++ f :: post → (∀ g ∈ pre, p g = false) →
        p f = true → r = f.path) ∧
      (r = [] ↔ ∀ f ∈ noteFiles ws, p f = false) := by
  constructor
  · intro pre f post hsplit hpre hf
    have : (noteFiles ws).find? p = some f := by
      rw [hsplit]
      clear hsplit
      induction pre with
      | nil => simp [List.find?_cons, hf]
      | cons g gs ih =>
        rw [List.cons_append, List.find?_cons, hpre g (List.mem_cons_self _ _)]
        exact ih (fun x hx => hpre x (List.mem_cons_of_mem _ hx))
    rw [hr, this]
  · constructor
    · intro h
      cases hfind : (noteFiles ws).find? p with
      | none =>
        intro f hf
        have := List.find?_eq_none.mp hfind f hf
        simpa using this
      | some f =>
        rw [hfind] at hr
        exact absurd (hr.symm.trans h)
          (noteFiles_path_ne_nil ws f (List.mem_of_find?_eq_some hfind))
    · intro h
      have : (noteFiles ws).find? p = none :=
        List.find?_eq_none.mpr (fun f hf => by simp [h f hf])
      rw [hr, this]

theorem findNoteById_eq (token : QString) (ws : Workspace)
    (hv : isValidZettelId token = true) :
    findNoteById token ws =
      match (noteFiles ws).find? (matchesById token) with
      | some f => f.path
      | none => [] := by
  have e : idRoundReturns token = matchesById token := funext (idRoundReturns_eq token)
  unfold findNoteById
  simp only [hv, Bool.not_true, Bool.false_eq_true, if_false, e]

theorem findNoteByTitle_eq (token : QString) (ws : Workspace) :
    findNoteByTitle token ws =
      match (noteFiles ws).find? (matchesByTitle token) with
      | some f => f.path
      | none => [] := by
  have e : titleRoundReturns (normalizeTitle token) = matchesByTitle token :=
    funext (titleRoundReturns_eq token)
  unfold findNoteByTitle
  simp only [e]

theorem findNoteById_of_invalid (token : QString) (ws : Workspace)
    (h : isValidZettelId token = false) : findNoteById token ws = [] := by
  simp [findNoteById, h]

/-- The token `Hello` resolves by identifier to nothing, also in a workspace
with a note `Hello.md` whose first line is `Hello`. -/
theorem findNoteById_hello :
    findNoteById "Hello".toList
      [⟨"/notes/Hello.md".toList, some "Hello\ntext".toList⟩] = [] :=
  findNoteById_of_invalid _ _ (by decide)

theorem noteFiles_workspaceNotes : noteFiles workspaceNotes = workspaceNotes := by decide

/-- What `findNoteById` returns for a token of the grammar: the path of the
first note file, in scan order, that passes the test of the code
(`matchesById`, on the file name up to its first dot), and the empty string
if and only if no note file passes it. -/
theorem findNoteById_first_match (token : QString) (ws : Workspace)
    (ht : token ∈ zettelGrammar) :
    (∀ pre f post, noteFiles ws = pre ++ f :: post →
        (∀ g ∈ pre, matchesById token g = false) → matchesById token f = true →
        findNoteById token ws = f.path) ∧
      (findNoteById token ws = [] ↔ ∀ f ∈ noteFiles ws, matchesById token f = false) :=
  first_path_spec (matchesById token) ws (findNoteById token ws)
    (findNoteById_eq token ws (isValidZettelId_of_grammar ht))

/-- In the example workspace the token `1a` resolves to `1a Details.md`, the
second file of the scan. -/
theorem findNoteById_first_match_witness :
    findNoteById "1a".toList workspaceNotes = "/notes/1a Details.md".toList :=
  (findNoteById_first_match "1a".toList workspaceNotes
      ((mem_zettelGrammar_iff _).mpr ⟨'1', ['a'], rfl, by decide, by decide⟩)).1
    [⟨"/notes/1 Intro.md".toList, some "1 Intro\n\nSee [[1a]] and [[Conclusion]]".toList⟩]
    ⟨"/notes/1a Details.md".toList, some "Details".toList⟩
    [⟨"/notes/Conclusion.md".toList, some "# The End".toList⟩]
    (by decide) (by decide) (by decide)

/-- The two base names of a path differ only when the file name has a dot
before the one of its extension: where they are equal, the test of the code
is the match predicate of the specification. -/
theorem matchesById_eq_spec (token : QString) (f : NoteFile)
    (h : baseName f.path = completeBaseName f.path) :
    matchesById token f = specMatchesById token f := by
  unfold matchesById specMatchesById
  rw [h]

/-- In a workspace whose note files have no dot in their name but the one of
the extension, `findNoteById` returns, for a token of the grammar, the first
note file that satisfies the match predicate of the specification, and the
empty string if and only if no note file satisfies it. -/
theorem findNoteById_first_match_spec (token : QString) (ws : Workspace)
    (ht : token ∈ zettelGrammar)
    (hdot : ∀ f ∈ noteFiles ws, baseName f.path = completeBaseName f.path) :
    (∀ pre f post, noteFiles ws = pre ++ f :: post →
        (∀ g ∈ pre, specMatchesById token g = false) → specMatchesById token f = true →
        findNoteById token ws = f.path) ∧
      (findNoteById token ws = [] ↔ ∀ f ∈ noteFiles ws, specMatchesById token f = false) := by
  have key : ∀ f ∈ noteFiles ws, matchesById token f = specMatchesById token f :=
    fun f hf => matchesById_eq_spec token f (hdot f hf)
  have hcode := first_path_spec (matchesById token) ws (findNoteById token ws)
    (findNoteById_eq token ws (isValidZettelId_of_grammar ht))
  constructor
  · intro pre f post hsplit hpre hf
    have hmem : ∀ g ∈ pre ++ f :: post, g ∈ noteFiles ws := fun g hg => hsplit ▸ hg
    refine hcode.1 pre f post hsplit (fun g hg => ?_) ?_
    · rw [key g (hmem g (List.mem_append_left _ hg))]
      exact hpre g hg
    · rw [key f (hmem f (List.mem_append_right _ (List.mem_cons_self _ _)))]
      exact hf
  · rw [hcode.2]
    constructor
    · intro h f hf
      rw [← key f hf]
      exact h f hf
    · intro h f hf
      rw [key f hf]
      exact h f hf

/-- C11 (`findNoteById` returns the first file that satisfies the match
predicate, and the empty string if and only if no file satisfies it). In the
workspace whose only note is `1.5 plan.md`, with the first line `Plan`, the
token `1` is a word of the grammar and no note file satisfies the match
predicate: the base file name `1.5 plan` is not `1` and does not begin with
`1` and a space, and the first line does not parse to an identifier. Yet
`findNoteById` returns the path of the note and not the empty string: it
tests the file name up to its first dot, which is `1`. -/
theorem findNoteById_beyond_predicate :
    "1".toList ∈ zettelGrammar ∧
      noteFiles workspacePlan = workspacePlan ∧
      (∀ f ∈ noteFiles workspacePlan, specMatchesById "1".toList f = false) ∧
      findNoteById "1".toList workspacePlan = "/notes/1.5 plan.md".toList ∧
      findNoteById "1".toList workspacePlan ≠ [] := by
  refine ⟨(mem_zettelGrammar_iff _).mpr ⟨'1', [], rfl, by decide, by decide⟩,
    by decide, by decide, by decide, by decide⟩

/-- C12 (a token that is not a valid identifier resolves to nothing). The
token made of `1` and a line feed is not a word of the grammar, and
`findNoteById` resolves it to the note whose base file name equals it:
`isValidZettelId` accepts the token because `$` holds before a final line
feed. -/
theorem findNoteById_final_line_feed :
    ['1', LF] ∉ zettelGrammar ∧
      findNoteById ['1', LF] workspaceLineFeed =
        "/notes/1".toList ++ [LF] ++ ".md".toList := by
  refine ⟨?_, by decide⟩
  intro h
  have := isIdChar_not_LF h
  simp at this

/-- Counterexample to C13 as stated: the tokens `_a` and ` a` differ only in
an underscore against a space, and in the workspace with the note `_a.md`
the first resolves to that note and the second to nothing, because a space at
the end of a token is trimmed before spaces are replaced. -/
theorem findNoteByTitle_space_at_end :
    replaceSpaces " a".toList = replaceSpaces "_a".toList ∧
      findNoteByTitle "_a".toList workspaceUnderscore = "/notes/_a.md".toList ∧
      findNoteByTitle " a".toList workspaceUnderscore = [] := by
  decide

/-- C13, amended (`findNoteByTitle` returns the first match). `findNoteByTitle`
returns the path of the first note file, in scan order, for which the
normalized token equals the normalized base file name or, when the first line
begins with `#`, the normalized heading text; it returns the empty string if
and only if no note file qualifies; and two tokens with the same normal form
(trim, lower-case, spaces to underscores) resolve to the same file. -/
theorem findNoteByTitle_first_match (token : QString) (ws : Workspace) :
    (∀ pre f post, noteFiles ws = pre ++ f :: post →
        (∀ g ∈ pre, matchesByTitle token g = false) → matchesByTitle token f = true →
        findNoteByTitle token ws = f.path) ∧
      (findNoteByTitle token ws = [] ↔ ∀ f ∈ noteFiles ws, matchesByTitle token f = false) ∧
      (∀ token2, normalizeTitle token2 = normalizeTitle token →
        findNoteByTitle token2 ws = findNoteByTitle token ws) := by
  have h := first_path_spec (matchesByTitle token) ws (findNoteByTitle token ws)
    (findNoteByTitle_eq token ws)
  refine ⟨h.1, h.2, ?_⟩
  intro token2 he
  unfold findNoteByTitle
  rw [he]

/-- Witness of C13, amended: ` The End ` and `the_end` resolve to the note
whose heading is `# The End`, the third file of the scan. -/
theorem findNoteByTitle_first_match_witness :
    findNoteByTitle "the_end".toList workspaceNotes = "/notes/Conclusion.md".toList ∧
      findNoteByTitle " The End ".toList workspaceNotes =
        findNoteByTitle "the_end".toList workspaceNotes :=
  ⟨(findNoteByTitle_first_match "the_end".toList workspaceNotes).1
      [⟨"/notes/1 Intro.md".toList, some "1 Intro\n\nSee [[1a]] and [[Conclusion]]".toList⟩,
       ⟨"/notes/1a Details.md".toList, some "Details".toList⟩]
      ⟨"/notes/Conclusion.md".toList, some "# The End".toList⟩ []
      (by decide) (by decide) (by decide),
    (findNoteByTitle_first_match "the_end".toList workspaceNotes).2.2 " The End ".toList
      (by decide)⟩

/-! ## Link targets -/

/-- C14 (combined resolution is by identifier first). Every link that
`parseWikiLinks` returns for a text scanned with a workspace has as target
file the result of `findNoteById` on its link text when that is not empty,
and the result of `findNoteByTitle` otherwise; so a match by identifier wins
over a match by title wherever the two files stand in the scan. -/
theorem parseWikiLinks_target (text : QString) (ws : Workspace) (link : WikiLink)
    (h : link ∈ parseWikiLinks text (some ws)) :
    link.targetFile = resolveLink link.linkText ws ∧
      (findNoteById link.linkText ws ≠ [] →
        link.targetFile = findNoteById link.linkText ws) := by
  unfold parseWikiLinks at h
  obtain ⟨m, -, rfl⟩ := List.mem_map.mp h
  have key : (wikiLinkOfMatch m (some ws)).targetFile =
      resolveLink (wikiLinkOfMatch m (some ws)).linkText ws := by
    unfold wikiLinkOfMatch resolveLink
    simp only
    split <;> simp_all
  refine ⟨key, fun hne => ?_⟩
  rw [key]
  unfold resolveLink
  rw [if_pos hne]

/-- Witness of C14: `Heading.md` matches `1a` as a title and is scanned first,
`1a Details.md` matches it as an identifier, and the link `[[1a]]` has
`1a Details.md` as its target. -/
theorem parseWikiLinks_target_witness :
    findNoteByTitle "1a".toList workspaceTitleFirst = "/notes/Heading.md".toList ∧
      "/notes/1a Details.md".toList = resolveLink "1a".toList workspaceTitleFirst :=
  ⟨by decide,
    (parseWikiLinks_target "see [[1a]]".toList workspaceTitleFirst
      ⟨"1a".toList, "1a".toList, "/notes/1a Details.md".toList, 4, 6, true⟩ (by decide)).1⟩

/-- C15 (`.markdown` files belong to the corpus). In the workspace whose only
file is `Notes.markdown`, `findNoteByTitle` on `Notes` returns nothing, and
in the one whose only file is `7.markdown`, `getAllZettelIds` is empty: the
name filters of the scans are `*.md` and `*.txt` only. -/
theorem markdown_files_not_scanned :
    noteFiles workspaceMarkdownTitle = [] ∧
      findNoteByTitle "Notes".toList workspaceMarkdownTitle = [] ∧
      getAllZettelIds workspaceMarkdownId = [] ∧
      findNoteById "7".toList workspaceMarkdownId = [] := by
  decide

/-! ## Enumeration -/

theorem mem_zettelIdsOfFile (f : NoteFile) (x : QString) :
    x ∈ zettelIdsOfFile f ↔ noteIdOf f = some x := by
  unfold zettelIdsOfFile noteIdOf firstLineOf
  simp only
  split
  · simp [eq_comm]
  · cases hc : f.content with
    | none =>
      have : (parseZettelId []).isValid = false := by decide
      simp [this]
    | some text =>
      simp only [parseZettelId_trimmed]
      split <;> simp [eq_comm]

theorem mem_collectZettelIds (fs : List NoteFile) (x : QString) :
    x ∈ collectZettelIds fs ↔ ∃ f ∈ fs, noteIdOf f = some x := by
  induction fs with
  | nil => simp [collectZettelIds]
  | cons f fs ih =>
    simp only [collectZettelIds, List.mem_append, ih, mem_zettelIdsOfFile, List.mem_cons,
      exists_eq_or_imp]

theorem removeDuplicates_nodup (l : List QString) : (removeDuplicates l).Nodup := by
  induction l with
  | nil => simp [removeDuplicates]
  | cons x xs ih =>
    unfold removeDuplicates
    rw [List.nodup_cons]
    exact ⟨by simp [List.mem_filter], ih.filter _⟩

/-- C16 (`getAllZettelIds`). The result holds exactly the identifiers that
the note files contribute, each file the one extracted from its base file
name if there is one, otherwise the valid one parsed from its first line,
otherwise none; it has no duplicates; and a file whose name yields an
identifier contributes that identifier alone. -/
theorem getAllZettelIds_spec (ws : Workspace) :
    (∀ x, x ∈ getAllZettelIds ws ↔ ∃ f ∈ noteFiles ws, noteIdOf f = some x) ∧
      (getAllZettelIds ws).Nodup ∧
      (∀ f : NoteFile, extractZettelIdFromFileName (baseName f.path) ≠ [] →
        zettelIdsOfFile f = [extractZettelIdFromFileName (baseName f.path)]) := by
  refine ⟨fun x => ?_, removeDuplicates_nodup _, fun f hf => ?_⟩
  · unfold getAllZettelIds
    rw [mem_removeDuplicates, mem_collectZettelIds]
  · unfold zettelIdsOfFile
    simp only [hf, ne_eq, not_false_eq_true, if_true]

/-- Witness of C16: the note `1 Intro.md` with the first line `2 Other`
contributes the identifier `1` only. -/
theorem getAllZettelIds_spec_witness :
    getAllZettelIds workspaceTwoIds = ["1".toList] ∧
      zettelIdsOfFile ⟨"/notes/1 Intro.md".toList, some "2 Other\nText".toList⟩ =
        [extractZettelIdFromFileName (baseName "/notes/1 Intro.md".toList)] ∧
      (parseZettelId "2 Other".toList).isValid = true :=
  ⟨by decide,
    (getAllZettelIds_spec workspaceTwoIds).2.2
      ⟨"/notes/1 Intro.md".toList, some "2 Other\nText".toList⟩ (by decide),
    by decide⟩

/-- C17 (`extractZettelIdFromFileName`). For a name that begins with a digit
the result is the longest beginning of the name that is a word of the
grammar, whatever follows it; the result is empty exactly when the name does
not begin with a digit; and a non-empty result is accepted by
`isValidZettelId`. -/
theorem extractZettelIdFromFileName_spec (name : QString) :
    ((∃ d t, name = d :: t ∧ reDigit d = true) →
        ∃ rest, IsLongestIdMatch name (extractZettelIdFromFileName name) rest) ∧
      (extractZettelIdFromFileName name = [] ↔ ¬ ∃ d t, name = d :: t ∧ reDigit d = true) ∧
      (extractZettelIdFromFileName name ≠ [] →
        isValidZettelId (extractZettelIdFromFileName name) = true) := by
  cases name with
  | nil =>
    have e : extractZettelIdFromFileName [] = [] := rfl
    rw [e]
    simp
  | cons c t =>
    cases hc : reDigit c with
    | false =>
      have e : extractZettelIdFromFileName (c :: t) = [] := by
        unfold extractZettelIdFromFileName
        rw [zettelIdRegexMatch_cons_nondigit c t hc]
      rw [e]
      refine ⟨?_, ?_, fun h => absurd rfl h⟩
      · rintro ⟨d, u, h1, h2⟩
        injection h1 with h1 h3
        subst h1
        rw [hc] at h2
        cases h2
      · simp only [true_iff]
        rintro ⟨d, u, h1, h2⟩
        injection h1 with h1 h3
        subst h1
        rw [hc] at h2
        cases h2
    | true =>
      have e : extractZettelIdFromFileName (c :: t) = c :: t.takeWhile isIdChar := by
        unfold extractZettelIdFromFileName
        rw [zettelIdRegexMatch_cons_digit c t hc]
      have hg : c :: t.takeWhile isIdChar ∈ zettelGrammar :=
        (mem_zettelGrammar_iff _).mpr ⟨c, _, rfl, hc, fun x hx => List.mem_takeWhile_imp hx⟩
      rw [e]
      refine ⟨fun _ => ⟨t.dropWhile isIdChar, ?_⟩, ?_, fun _ => isValidZettelId_of_grammar hg⟩
      · have := isLongestIdMatch_of_head (c :: t.takeWhile isIdChar) (t.dropWhile isIdChar) hg
          (dropWhile_head_false isIdChar t)
        simpa using this
      · constructor
        · intro h; cases h
        · intro h; exact absurd ⟨c, t, rfl, hc⟩ h

/-- Witness of C17: the file name `1a-notes` yields `1a`, which is valid. -/
theorem extractZettelIdFromFileName_spec_witness :
    extractZettelIdFromFileName "1a-notes".toList = "1a".toList ∧
      (∃ rest, IsLongestIdMatch "1a-notes".toList
        (extractZettelIdFromFileName "1a-notes".toList) rest) ∧
      isValidZettelId (extractZettelIdFromFileName "1a-notes".toList) = true :=
  ⟨by decide,
    (extractZettelIdFromFileName_spec "1a-notes".toList).1 ⟨'1', "a-notes".toList, rfl, by decide⟩,
    (extractZettelIdFromFileName_spec "1a-notes".toList).2.2 (by decide)⟩

/-! ## Backlinks -/

theorem parseWikiLinks_none_target (text : QString) :
    ∀ link ∈ parseWikiLinks text none, link.targetFile = [] := by
  intro link h
  unfold parseWikiLinks at h
  obtain ⟨m, -, rfl⟩ := List.mem_map.mp h
  rfl

/-- Membership in the result of `findBacklinks`. -/
theorem mem_findBacklinks (notePath : QString) (ws : Workspace) (p : QString) :
    p ∈ findBacklinks notePath ws ↔
      ∃ f ∈ noteFiles ws, f.path = p ∧ f.path ≠ notePath ∧
        ∃ text, f.content = some text ∧
          ∃ link ∈ parseWikiLinks text none,
            linkPointsTo (completeBaseName notePath)
              (extractZettelIdFromFileName (completeBaseName notePath)) notePath link = true := by
  unfold findBacklinks
  simp only [List.mem_map, List.mem_filter]
  constructor
  · rintro ⟨f, ⟨hf, hcond⟩, rfl⟩
    refine ⟨f, hf, rfl, ?_⟩
    by_cases hp : f.path = notePath
    · simp [hp] at hcond
    · refine ⟨hp, ?_⟩
      cases hc : f.content with
      | none => simp [hp, hc] at hcond
      | some text =>
        simp only [hc, beq_iff_eq, hp, if_false, List.any_eq_true] at hcond
        exact ⟨text, rfl, hcond⟩
  · rintro ⟨f, hf, rfl, hp, text, hc, hlink⟩
    refine ⟨f, ⟨hf, ?_⟩, rfl⟩
    simp only [hc, beq_iff_eq, hp, if_false, List.any_eq_true]
    exact hlink

theorem linkPointsTo_iff (title id notePath : QString) (link : WikiLink)
    (ht : link.targetFile = []) (hp : notePath ≠ []) :
    linkPointsTo title id notePath link = true ↔
      link.linkText = title ∨ (link.linkText = id ∧ id ≠ []) := by
  have hp2 : ¬ ([] : QString) = notePath := fun h => hp h.symm
  unfold linkPointsTo
  rw [ht]
  cases id with
  | nil => simp [hp2, hp]
  | cons c t => simp [hp2, hp]

/-- C18 (a link that resolves to the note makes a backlink). In the workspace
where `a.md` holds the link `[[conclusion]]`, that link resolves to
`Conclusion.md`, and `findBacklinks` of `Conclusion.md` is empty:
`findBacklinks` scans the links without the workspace, so no link has a
target file and the comparison of the target file with the note path never
holds. -/
theorem findBacklinks_misses_resolved_link :
    (parseWikiLinks "see [[conclusion]]".toList (some workspaceLowerLink)).map
        (fun l => l.targetFile) = ["/notes/Conclusion.md".toList] ∧
      resolveLink "conclusion".toList workspaceLowerLink = "/notes/Conclusion.md".toList ∧
      findBacklinks "/notes/Conclusion.md".toList workspaceLowerLink = [] := by
  decide

/-- C19 (backlinks by link text). `findBacklinks` contains every other note
file that can be read and has a wiki link whose link text is the base file
name of the note, or its identifier taken from the file name when there is
one; and every file it contains has at least one wiki link. -/
theorem findBacklinks_by_link_text (notePath : QString) (ws : Workspace) :
    (∀ f ∈ noteFiles ws, f.path ≠ notePath → ∀ text, f.content = some text →
        ∀ link ∈ parseWikiLinks text none,
          (link.linkText = completeBaseName notePath ∨
            (link.linkText = extractZettelIdFromFileName (completeBaseName notePath) ∧
              extractZettelIdFromFileName (completeBaseName notePath) ≠ [])) →
          f.path ∈ findBacklinks notePath ws) ∧
      (∀ p ∈ findBacklinks notePath ws,
        ∃ f ∈ noteFiles ws, f.path = p ∧
          ∃ text, f.content = some text ∧ parseWikiLinks text none ≠ []) := by
  constructor
  · intro f hf hp text hc link hl hcond
    refine (mem_findBacklinks notePath ws f.path).mpr ⟨f, hf, rfl, hp, text, hc, link, hl, ?_⟩
    unfold linkPointsTo
    rcases hcond with h | ⟨h1, h2⟩
    · simp [h]
    · cases hid : extractZettelIdFromFileName (completeBaseName notePath) with
      | nil => exact absurd hid h2
      | cons c t => simp [h1, hid]
  · intro p hp
    obtain ⟨f, hf, hfp, -, text, hc, link, hl, -⟩ := (mem_findBacklinks notePath ws p).mp hp
    exact ⟨f, hf, hfp, text, hc, List.ne_nil_of_mem hl⟩

/-- Witness of C19: in the end-to-end example the backlinks of
`Conclusion.md` and of `1a Details.md` are each exactly `1 Intro.md`. -/
theorem findBacklinks_by_link_text_witness :
    findBacklinks "/notes/Conclusion.md".toList workspaceNotes = ["/notes/1 Intro.md".toList] ∧
      findBacklinks "/notes/1a Details.md".toList workspaceNotes =
        ["/notes/1 Intro.md".toList] ∧
      "/notes/1 Intro.md".toList ∈ findBacklinks "/notes/1a Details.md".toList workspaceNotes :=
  ⟨by decide, by decide,
    (findBacklinks_by_link_text "/notes/1a Details.md".toList workspaceNotes).1
      ⟨"/notes/1 Intro.md".toList, some "1 Intro\n\nSee [[1a]] and [[Conclusion]]".toList⟩
      (by decide) (by decide) "1 Intro\n\nSee [[1a]] and [[Conclusion]]".toList rfl
      ⟨"1a".toList, "1a".toList, [], 13, 6, false⟩ (by decide) (Or.inr ⟨by decide, by decide⟩)⟩

/-- Counterexample to C20 as stated: for the note `1a-notes.md`, the file
`b.md` that holds only the link `[[1a]]` is returned by `findBacklinks`,
and that link resolves to nothing, neither by identifier nor by title. -/
theorem findBacklinks_unresolved_link :
    findBacklinks "/notes/1a-notes.md".toList workspaceIdPrefix = ["/notes/b.md".toList] ∧
      (parseWikiLinks "[[1a]]".toList (some workspaceIdPrefix)).map
          (fun l => (l.linkText, l.targetFile)) = [("1a".toList, [])] ∧
      resolveLink "1a".toList workspaceIdPrefix = [] := by
  decide

/-- C20, amended (backlinks are sound for the link text). Every file that
`findBacklinks` returns for a note is another note file that can be read and
holds a wiki link whose link text is the base file name of the note or its
non-empty identifier taken from the file name. -/
theorem findBacklinks_sound_for_link_text (notePath : QString) (ws : Workspace)
    (hp : notePath ≠ []) :
    ∀ p ∈ findBacklinks notePath ws,
      p ≠ notePath ∧
        ∃ f ∈ noteFiles ws, f.path = p ∧
          ∃ text, f.content = some text ∧
            ∃ link ∈ parseWikiLinks text none,
              link.linkText = completeBaseName notePath ∨
                (link.linkText = extractZettelIdFromFileName (completeBaseName notePath) ∧
                  extractZettelIdFromFileName (completeBaseName notePath) ≠ []) := by
  intro p hmem
  obtain ⟨f, hf, hfp, hne, text, hc, link, hl, hpt⟩ := (mem_findBacklinks notePath ws p).mp hmem
  refine ⟨hfp ▸ hne, f, hf, hfp, text, hc, link, hl, ?_⟩
  exact (linkPointsTo_iff _ _ notePath link (parseWikiLinks_none_target text link hl) hp).mp hpt

/-- Witness of C20, amended: the backlink `b.md` of `1a-notes.md`. -/
theorem findBacklinks_sound_for_link_text_witness :
    "/notes/b.md".toList ≠ "/notes/1a-notes.md".toList ∧
      ∃ f ∈ noteFiles workspaceIdPrefix, f.path = "/notes/b.md".toList ∧
        ∃ text, f.content = some text ∧
          ∃ link ∈ parseWikiLinks text none,
            link.linkText = completeBaseName "/notes/1a-notes.md".toList ∨
              (link.linkText =
                  extractZettelIdFromFileName (completeBaseName "/notes/1a-notes.md".toList) ∧
                extractZettelIdFromFileName (completeBaseName "/notes/1a-notes.md".toList) ≠ []) :=
  findBacklinks_sound_for_link_text "/notes/1a-notes.md".toList workspaceIdPrefix (by decide)
    "/notes/b.md".toList (by decide)

/-! ## The scan of wiki links -/

/-- A match of the wiki-link pattern at the start of `s`: `s` is `[[`, the
content, `]]` and the rest; the content is not empty and has no `]`. -/
theorem wikiLinkMatchAt_some (s c rest : QString) (h : wikiLinkMatchAt s = some (c, rest)) :
    s = '[' :: '[' :: (c ++ ']' :: ']' :: rest) ∧ c ≠ [] ∧ ∀ x ∈ c, x ≠ ']' := by
  unfold wikiLinkMatchAt at h
  split at h
  · rename_i t
    simp only at h
    split at h
    · cases h
    · rename_i hne
      split at h
      · rename_i rest2 hd
        injection h with h
        injection h with h1 h2
        subst h1 h2
        refine ⟨?_, hne, ?_⟩
        · have := List.takeWhile_append_dropWhile (fun c => c != ']') t
          rw [hd] at this
          rw [this]
        · intro x hx
          have := List.mem_takeWhile_imp hx
          simpa using this
      · cases h
  · cases h

/-- The scan does not depend on the number of rounds allowed, once that is
at least the length of the text. -/
theorem wikiLinkGlobalMatch_fuel (fuel1 : Nat) :
    ∀ (fuel2 pos : Nat) (s : QString), s.length ≤ fuel1 → s.length ≤ fuel2 →
      wikiLinkGlobalMatch fuel1 pos s = wikiLinkGlobalMatch fuel2 pos s := by
  induction fuel1 with
  | zero =>
    intro fuel2 pos s h1 _
    have : s = [] := List.length_eq_zero.mp (Nat.le_zero.mp h1)
    subst this
    cases fuel2 <;> rfl
  | succ fuel1 ih =>
    intro fuel2 pos s h1 h2
    cases fuel2 with
    | zero =>
      have : s = [] := List.length_eq_zero.mp (Nat.le_zero.mp h2)
      subst this
      rfl
    | succ fuel2 =>
      cases s with
      | nil => rfl
      | cons x t =>
        unfold wikiLinkGlobalMatch
        simp only
        cases hm : wikiLinkMatchAt (x :: t) with
        | none =>
          simp only
          exact ih fuel2 _ t (by simpa using h1) (by simpa using h2)
        | some r =>
          obtain ⟨hs, -, -⟩ := wikiLinkMatchAt_some (x :: t) r.1 r.2 hm
          have hlen : r.2.length + 4 ≤ (x :: t).length := by
            have := congrArg List.length hs
            simp only [List.length_cons, List.length_append] at this ⊢
            omega
          simp only [List.length_cons] at hlen h1 h2
          simp only
          rw [ih fuel2 _ r.2 (by omega) (by omega)]

theorem wikiLinkMatchAt_occurrence (c post : QString) (hc : c ≠ [])
    (hb : ∀ x ∈ c, x ≠ ']') :
    wikiLinkMatchAt ('[' :: '[' :: (c ++ ']' :: ']' :: post)) = some (c, post) := by
  have hall : ∀ x ∈ c, (fun y : Char => y != ']') x = true := by
    intro x hx
    simpa using hb x hx
  have ht : (c ++ ']' :: ']' :: post).takeWhile (fun y => y != ']') = c := by
    rw [List.takeWhile_append_of_pos hall]
    simp [List.takeWhile_cons]
  have hd : (c ++ ']' :: ']' :: post).dropWhile (fun y => y != ']') = ']' :: ']' :: post := by
    rw [List.dropWhile_append_of_pos hall]
    simp [List.dropWhile_cons]
  unfold wikiLinkMatchAt
  simp only [ht, hd, hc, if_false]

/-- Every match of the scan of `s` from offset `pos` is an occurrence of
`[[c]]` in `s`, with `c` not empty and without `]`, at the offset it
records. -/
theorem wikiLinkGlobalMatch_occurrence (fuel : Nat) :
    ∀ (pos : Nat) (s : QString), ∀ m ∈ wikiLinkGlobalMatch fuel pos s,
      ∃ pre post, s = pre ++ '[' :: '[' :: (m.captured ++ ']' :: ']' :: post) ∧
        m.capturedStart = pos + pre.length ∧ m.capturedLength = m.captured.length + 4 ∧
        m.captured ≠ [] ∧ ∀ x ∈ m.captured, x ≠ ']' := by
  induction fuel with
  | zero => intro pos s m hm; simp [wikiLinkGlobalMatch] at hm
  | succ fuel ih =>
    intro pos s m hm
    cases s with
    | nil => simp [wikiLinkGlobalMatch] at hm
    | cons x t =>
      unfold wikiLinkGlobalMatch at hm
      simp only at hm
      cases hmatch : wikiLinkMatchAt (x :: t) with
      | none =>
        rw [hmatch] at hm
        simp only at hm
        obtain ⟨pre, post, hs, h1, h2, h3, h4⟩ := ih (pos + 1) t m hm
        refine ⟨x :: pre, post, by rw [hs]; rfl, ?_, h2, h3, h4⟩
        rw [h1, List.length_cons]; omega
      | some r =>
        rw [hmatch] at hm
        simp only at hm
        obtain ⟨hs, hne, hb⟩ := wikiLinkMatchAt_some (x :: t) r.1 r.2 hmatch
        rcases List.mem_cons.mp hm with h | h
        · subst h
          exact ⟨[], r.2, by simpa using hs, by simp, rfl, hne, hb⟩
        · obtain ⟨pre, post, hs2, h1, h2, h3, h4⟩ := ih _ r.2 m h
          refine ⟨'[' :: '[' :: (r.1 ++ ']' :: ']' :: pre), post, ?_, ?_, h2, h3, h4⟩
          · rw [hs, hs2]; simp
          · rw [h1]; simp only [List.length_cons, List.length_append]; omega

/-- The matches of the scan are in order and do not overlap: every match
begins at or after `pos`, and each one ends before the later ones begin. -/
theorem wikiLinkGlobalMatch_ordered (fuel : Nat) :
    ∀ (pos : Nat) (s : QString),
      (∀ m ∈ wikiLinkGlobalMatch fuel pos s, pos ≤ m.capturedStart) ∧
        (wikiLinkGlobalMatch fuel pos s).Pairwise
          (fun a b => a.capturedStart + a.capturedLength ≤ b.capturedStart) := by
  induction fuel with
  | zero => intro pos s; simp [wikiLinkGlobalMatch]
  | succ fuel ih =>
    intro pos s
    cases s with
    | nil => simp [wikiLinkGlobalMatch]
    | cons x t =>
      unfold wikiLinkGlobalMatch
      simp only
      cases hmatch : wikiLinkMatchAt (x :: t) with
      | none =>
        simp only
        obtain ⟨h1, h2⟩ := ih (pos + 1) t
        exact ⟨fun m hm => Nat.le_of_succ_le (h1 m hm), h2⟩
      | some r =>
        simp only
        obtain ⟨h1, h2⟩ := ih (pos + (r.1.length + 4)) r.2
        constructor
        · intro m hm
          rcases List.mem_cons.mp hm with h | h
          · subst h; exact le_refl _
          · have := h1 m h; omega
        · rw [List.pairwise_cons]
          exact ⟨fun m hm => h1 m hm, h2⟩

theorem wikiLinkOfMatch_span (m : WikiMatch) (w : Option Workspace) :
    (wikiLinkOfMatch m w).startPos = m.capturedStart ∧
      (wikiLinkOfMatch m w).length = m.capturedLength := by
  cases w <;> exact ⟨rfl, rfl⟩

/-- C22 (the links are in order and do not overlap). In the result of
`parseWikiLinks` every link begins before every later one, and its span ends
at or before the start of every later one; in particular this holds for
consecutive links. -/
theorem parseWikiLinks_ordered (t : QString) (w : Option Workspace) :
    (parseWikiLinks t w).Pairwise
        (fun a b => a.startPos < b.startPos ∧ a.startPos + a.length ≤ b.startPos) ∧
      (parseWikiLinks t w).Chain' (fun a b => a.startPos + a.length ≤ b.startPos) := by
  have hp : (parseWikiLinks t w).Pairwise
      (fun a b => a.startPos < b.startPos ∧ a.startPos + a.length ≤ b.startPos) := by
    unfold parseWikiLinks
    rw [List.pairwise_map]
    refine List.Pairwise.imp_of_mem ?_ (wikiLinkGlobalMatch_ordered t.length 0 t).2
    intro a b ha _ hab
    obtain ⟨-, -, -, -, hlen, -, -⟩ := wikiLinkGlobalMatch_occurrence t.length 0 t a ha
    rw [(wikiLinkOfMatch_span a w).1, (wikiLinkOfMatch_span a w).2,
      (wikiLinkOfMatch_span b w).1]
    exact ⟨by omega, hab⟩
  exact ⟨hp, (hp.imp (fun h => h.2)).chain'⟩

/-- C23 (the span of a link). For every link of `parseWikiLinks`, the
`length` characters of the text from `startPos` on are `[[`, a content that
is not empty and has no `]`, and `]]`; `length` is the length of the content
plus 4, and the span lies inside the text. -/
theorem parseWikiLinks_span (t : QString) (w : Option Workspace) (link : WikiLink)
    (h : link ∈ parseWikiLinks t w) :
    ∃ c : QString, c ≠ [] ∧ (∀ x ∈ c, x ≠ ']') ∧
      (t.drop link.startPos).take link.length = "[[".toList ++ c ++ "]]".toList ∧
      link.length = c.length + 4 ∧ link.startPos + link.length ≤ t.length := by
  unfold parseWikiLinks at h
  obtain ⟨m, hm, rfl⟩ := List.mem_map.mp h
  obtain ⟨pre, post, hs, hstart, hlen, hne, hb⟩ :=
    wikiLinkGlobalMatch_occurrence t.length 0 t m hm
  rw [(wikiLinkOfMatch_span m w).1, (wikiLinkOfMatch_span m w).2, hstart, hlen]
  refine ⟨m.captured, hne, hb, ?_, rfl, ?_⟩
  · have e : '[' :: '[' :: (m.captured ++ ']' :: ']' :: post) =
        ("[[".toList ++ m.captured ++ "]]".toList) ++ post := by
      simp
    have hl : ("[[".toList ++ m.captured ++ "]]".toList).length = m.captured.length + 4 := by
      simp [List.length_append]
    rw [hs, Nat.zero_add, List.drop_left, e, ← hl, List.take_left]
  · have := congrArg List.length hs
    simp only [List.length_append, List.length_cons] at this
    omega

/-- Witness of C23: the link of the text `a [[x|y]] b`. -/
theorem parseWikiLinks_span_witness :
    ∃ c : QString, c ≠ [] ∧ (∀ x ∈ c, x ≠ ']') ∧
      ("a [[x|y]] b".toList.drop 2).take 7 = "[[".toList ++ c ++ "]]".toList ∧
      7 = c.length + 4 ∧ 2 + 7 ≤ "a [[x|y]] b".toList.length :=
  parseWikiLinks_span "a [[x|y]] b".toList none
    ⟨"x".toList, "y".toList, [], 2, 7, false⟩ (by decide)

/-- The scan misses no occurrence: an occurrence of `[[c]]` in `s`, with `c`
not empty and without `]`, overlaps the span of one of the matches. -/
theorem wikiLinkGlobalMatch_complete (fuel : Nat) :
    ∀ (pos : Nat) (s pre c post : QString), s.length ≤ fuel →
      s = pre ++ '[' :: '[' :: (c ++ ']' :: ']' :: post) → c ≠ [] → (∀ x ∈ c, x ≠ ']') →
      ∃ m ∈ wikiLinkGlobalMatch fuel pos s,
        m.capturedStart < pos + pre.length + (c.length + 4) ∧
          pos + pre.length < m.capturedStart + m.capturedLength := by
  induction fuel with
  | zero =>
    intro pos s pre c post hf hs _ _
    have : s = [] := List.length_eq_zero.mp (Nat.le_zero.mp hf)
    rw [this] at hs
    simp at hs
  | succ fuel ih =>
    intro pos s pre c post hf hs hc hb
    cases s with
    | nil => simp at hs
    | cons x t =>
      unfold wikiLinkGlobalMatch
      simp only
      cases hmatch : wikiLinkMatchAt (x :: t) with
      | none =>
        simp only
        cases pre with
        | nil =>
          rw [List.nil_append] at hs
          rw [hs, wikiLinkMatchAt_occurrence c post hc hb] at hmatch
          cases hmatch
        | cons y pre2 =>
          rw [List.cons_append] at hs
          injection hs with _ ht
          obtain ⟨m, hm, h1, h2⟩ := ih (pos + 1) t pre2 c post
            (by simpa using hf) ht hc hb
          refine ⟨m, hm, ?_, ?_⟩
          · simp only [List.length_cons]; omega
          · simp only [List.length_cons]; omega
      | some r =>
        simp only
        obtain ⟨hr, -, -⟩ := wikiLinkMatchAt_some (x :: t) r.1 r.2 hmatch
        by_cases hlt : pre.length < r.1.length + 4
        · exact ⟨⟨r.1, pos, r.1.length + 4⟩, List.mem_cons_self _ _, by simp only; omega,
            by simp only; omega⟩
        · have e : '[' :: '[' :: (r.1 ++ ']' :: ']' :: r.2) =
              ('[' :: '[' :: (r.1 ++ [']', ']'])) ++ r.2 := by simp
          have hl : ('[' :: '[' :: (r.1 ++ [']', ']'])).length = r.1.length + 4 := by simp
          rw [hr, e] at hs
          rcases List.append_eq_append_iff.mp hs with ⟨a, h1, h2⟩ | ⟨a, h1, h2⟩
          · have hlen : r.2.length ≤ fuel := by
              have := congrArg List.length hr
              simp only [List.length_cons, List.length_append] at this hf
              omega
            obtain ⟨m, hm, h3, h4⟩ := ih (pos + (r.1.length + 4)) r.2 a c post hlen h2 hc hb
            have hpl : pre.length = r.1.length + 4 + a.length := by
              rw [h1, List.length_append, hl]
            exact ⟨m, List.mem_cons_of_mem _ hm, by omega, by omega⟩
          · have hpl : r.1.length + 4 = pre.length + a.length := by
              rw [← hl, h1, List.length_append]
            have ha : a = [] := List.length_eq_zero.mp (by omega)
            subst ha
            rw [List.nil_append] at h2
            have hlen : r.2.length ≤ fuel := by
              have := congrArg List.length hr
              simp only [List.length_cons, List.length_append] at this hf
              omega
            obtain ⟨m, hm, h3, h4⟩ :=
              ih (pos + (r.1.length + 4)) r.2 [] c post hlen (by rw [← h2]; rfl) hc hb
            simp only [List.length_nil] at h3 h4
            exact ⟨m, List.mem_cons_of_mem _ hm, by omega, by omega⟩

theorem wikiLinkMatchAt_not_bracket (x : Char) (t : QString) (hx : x ≠ '[') :
    wikiLinkMatchAt (x :: t) = none := by
  unfold wikiLinkMatchAt
  split
  · rename_i heq
    injection heq with h1 _
    exact absurd h1 hx
  · rfl

theorem wikiLinkGlobalMatch_skip (sep : QString) :
    ∀ (fuel pos : Nat) (s : QString), (∀ x ∈ sep, x ≠ '[') →
      wikiLinkGlobalMatch (sep.length + fuel) pos (sep ++ s) =
        wikiLinkGlobalMatch fuel (pos + sep.length) s := by
  induction sep with
  | nil => intro fuel pos s _; simp
  | cons x sep ih =>
    intro fuel pos s h
    have e : (x :: sep).length + fuel = (sep.length + fuel) + 1 := by
      simp only [List.length_cons]; omega
    have e2 : pos + 1 + sep.length = pos + (x :: sep).length := by
      simp only [List.length_cons]; omega
    rw [e, List.cons_append, wikiLinkGlobalMatch]
    simp only [wikiLinkMatchAt_not_bracket x (sep ++ s) (h x (List.mem_cons_self _ _))]
    rw [ih fuel (pos + 1) s (fun y hy => h y (List.mem_cons_of_mem _ hy)), e2]

theorem wikiLinkGlobalMatch_link (fuel pos : Nat) (c rest : QString) (hc : c ≠ [])
    (hb : ∀ x ∈ c, x ≠ ']') :
    wikiLinkGlobalMatch (fuel + 1) pos ('[' :: '[' :: (c ++ ']' :: ']' :: rest)) =
      ⟨c, pos, c.length + 4⟩ :: wikiLinkGlobalMatch fuel (pos + (c.length + 4)) rest := by
  rw [wikiLinkGlobalMatch]
  simp only [wikiLinkMatchAt_occurrence c rest hc hb]

/-- The scan of a text of separated links returns one match for each link. -/
theorem wikiLinkGlobalMatch_linkedText (l : List (QString × QString)) :
    ∀ (fuel pos : Nat) (lastSep : QString),
      (∀ p ∈ l, (∀ x ∈ p.1, x ≠ '[') ∧ p.2 ≠ [] ∧ ∀ x ∈ p.2, x ≠ ']') →
      (∀ x ∈ lastSep, x ≠ '[') → (linkedText l lastSep).length ≤ fuel →
      (wikiLinkGlobalMatch fuel pos (linkedText l lastSep)).map (fun m => m.capturedLength) =
        l.map (fun p => p.2.length + 4) := by
  induction l with
  | nil =>
    intro fuel pos lastSep _ hs hf
    simp only [linkedText, List.map_nil] at hf ⊢
    have e : fuel = lastSep.length + (fuel - lastSep.length) := by omega
    have := wikiLinkGlobalMatch_skip lastSep (fuel - lastSep.length) pos [] hs
    rw [List.append_nil, ← e] at this
    rw [this]
    cases (fuel - lastSep.length) <;> rfl
  | cons p l ih =>
    intro fuel pos lastSep hl hs hf
    obtain ⟨sep, c⟩ := p
    obtain ⟨h1, h2, h3⟩ := hl (sep, c) (List.mem_cons_self _ _)
    have hshape : linkedText ((sep, c) :: l) lastSep =
        sep ++ '[' :: '[' :: (c ++ ']' :: ']' :: linkedText l lastSep) := by
      simp [linkedText]
    rw [hshape] at hf ⊢
    simp only [List.length_append, List.length_cons] at hf
    have e : fuel = sep.length + ((fuel - sep.length - 1) + 1) := by omega
    rw [e, wikiLinkGlobalMatch_skip sep _ pos _ h1, wikiLinkGlobalMatch_link _ _ c _ h2 h3]
    simp only [List.map_cons]
    rw [ih _ _ lastSep (fun q hq => hl q (List.mem_cons_of_mem _ hq)) hs (by omega)]

/-- C24 (the scan finds every occurrence). Every occurrence of `[[c]]` in the
text, with `c` not empty and without `]`, overlaps the span of a returned
link, so none lies in the text before, between or after the spans; a text
with such an occurrence has a link; and a text made of `n` links, each after
a separator without `[`, yields `n` links, of the lengths of these links. -/
theorem parseWikiLinks_complete (t : QString) (w : Option Workspace) :
    (∀ pre c post : QString, t = pre ++ "[[".toList ++ c ++ "]]".toList ++ post →
        c ≠ [] → (∀ x ∈ c, x ≠ ']') →
        ∃ link ∈ parseWikiLinks t w,
          link.startPos < pre.length + (c.length + 4) ∧
            pre.length < link.startPos + link.length) ∧
      ((∃ pre c post : QString, t = pre ++ "[[".toList ++ c ++ "]]".toList ++ post ∧
          c ≠ [] ∧ ∀ x ∈ c, x ≠ ']') → parseWikiLinks t w ≠ []) ∧
      (∀ (l : List (QString × QString)) (lastSep : QString), t = linkedText l lastSep →
        (∀ p ∈ l, (∀ x ∈ p.1, x ≠ '[') ∧ p.2 ≠ [] ∧ ∀ x ∈ p.2, x ≠ ']') →
        (∀ x ∈ lastSep, x ≠ '[') →
        (parseWikiLinks t w).length = l.length ∧
          (parseWikiLinks t w).map (fun k => k.length) = l.map (fun p => p.2.length + 4)) := by
  have key : ∀ pre c post : QString, t = pre ++ "[[".toList ++ c ++ "]]".toList ++ post →
      c ≠ [] → (∀ x ∈ c, x ≠ ']') →
      ∃ link ∈ parseWikiLinks t w,
        link.startPos < pre.length + (c.length + 4) ∧
          pre.length < link.startPos + link.length := by
    intro pre c post ht hc hb
    have hs : t = pre ++ '[' :: '[' :: (c ++ ']' :: ']' :: post) := by
      rw [ht]; simp
    obtain ⟨m, hm, h1, h2⟩ :=
      wikiLinkGlobalMatch_complete t.length 0 t pre c post (le_refl _) hs hc hb
    refine ⟨wikiLinkOfMatch m w, List.mem_map.mpr ⟨m, hm, rfl⟩, ?_, ?_⟩
    · rw [(wikiLinkOfMatch_span m w).1]; omega
    · rw [(wikiLinkOfMatch_span m w).1, (wikiLinkOfMatch_span m w).2]; omega
  refine ⟨key, ?_, ?_⟩
  · rintro ⟨pre, c, post, ht, hc, hb⟩
    obtain ⟨link, hl, -⟩ := key pre c post ht hc hb
    exact List.ne_nil_of_mem hl
  · intro l lastSep ht hl hs
    have hmap : (parseWikiLinks t w).map (fun k => k.length) =
        l.map (fun p => p.2.length + 4) := by
      unfold parseWikiLinks
      rw [List.map_map]
      have e : ((fun k : WikiLink => k.length) ∘ fun m => wikiLinkOfMatch m w) =
          fun m => m.capturedLength := by
        funext m
        exact (wikiLinkOfMatch_span m w).2
      rw [e, ht]
      exact wikiLinkGlobalMatch_linkedText l _ 0 lastSep hl hs (le_refl _)
    refine ⟨?_, hmap⟩
    have := congrArg List.length hmap
    simpa using this

/-- Witness of C24: the text `see [[1a]] and [[Conclusion]].` has its two
links found. -/
theorem parseWikiLinks_complete_witness :
    (parseWikiLinks "see [[1a]] and [[Conclusion]].".toList none).length = 2 ∧
      (parseWikiLinks "see [[1a]] and [[Conclusion]].".toList none).map (fun k => k.length) =
        [6, 14] ∧
      parseWikiLinks "see [[1a]] and [[Conclusion]].".toList none ≠ [] :=
  ⟨((parseWikiLinks_complete "see [[1a]] and [[Conclusion]].".toList none).2.2
      [("see ".toList, "1a".toList), (" and ".toList, "Conclusion".toList)] ".".toList
      (by decide) (by decide) (by decide)).1,
    ((parseWikiLinks_complete "see [[1a]] and [[Conclusion]].".toList none).2.2
      [("see ".toList, "1a".toList), (" and ".toList, "Conclusion".toList)] ".".toList
      (by decide) (by decide) (by decide)).2,
    (parseWikiLinks_complete "see [[1a]] and [[Conclusion]].".toList none).2.1
      ⟨"see ".toList, "1a".toList, " and [[Conclusion]].".toList, by decide, by decide,
        by decide⟩⟩

/-- C21 (no path twice, never the note itself). When the note files have
pairwise distinct paths, the result of `findBacklinks` has no path twice,
and in any case it does not contain the note path. -/
theorem findBacklinks_nodup (notePath : QString) (ws : Workspace)
    (hd : ((noteFiles ws).map (fun f => f.path)).Nodup) :
    (findBacklinks notePath ws).Nodup ∧ notePath ∉ findBacklinks notePath ws := by
  constructor
  · unfold findBacklinks
    exact hd.sublist ((List.filter_sublist _).map _)
  · intro h
    obtain ⟨f, -, hfp, hne, -⟩ := (mem_findBacklinks notePath ws notePath).mp h
    exact hne hfp

/-- Witness of C21: `A.md` links to itself and `B.md` holds two links to it;
the backlinks of `A.md` are `B.md`, once. -/
theorem findBacklinks_nodup_witness :
    findBacklinks "/notes/A.md".toList workspaceSelfLink = ["/notes/B.md".toList] ∧
      (findBacklinks "/notes/A.md".toList workspaceSelfLink).Nodup ∧
      "/notes/A.md".toList ∉ findBacklinks "/notes/A.md".toList workspaceSelfLink :=
  ⟨by decide, findBacklinks_nodup "/notes/A.md".toList workspaceSelfLink (by decide)⟩

/-! ## Link text and display text -/

theorem split_head (sep : Char) (s : QString) :
    ∃ tl, split sep s = s.takeWhile (fun c => c != sep) :: tl := by
  induction s with
  | nil => exact ⟨[], rfl⟩
  | cons x s ih =>
    obtain ⟨tl, htl⟩ := ih
    by_cases hx : x = sep
    · refine ⟨split sep s, ?_⟩
      simp [split, hx, List.takeWhile_cons]
    · refine ⟨tl, ?_⟩
      have e : split sep (x :: s) =
          (match split sep s with
            | [] => [[x]]
            | y :: ys => (x :: y) :: ys) := by
        simp [split, hx]
      rw [e, htl]
      simp [List.takeWhile_cons, hx]

theorem split_at_first (sep : Char) (left right : QString) (hl : ∀ x ∈ left, x ≠ sep) :
    split sep (left ++ sep :: right) = left :: split sep right := by
  induction left with
  | nil => simp [split]
  | cons x left ih =>
    have hx : x ≠ sep := hl x (List.mem_cons_self _ _)
    have e : split sep (x :: (left ++ sep :: right)) =
        (match split sep (left ++ sep :: right) with
          | [] => [[x]]
          | y :: ys => (x :: y) :: ys) := by
      simp [split, hx]
    rw [List.cons_append, e, ih (fun y hy => hl y (List.mem_cons_of_mem _ hy))]

/-- The two texts of a link in terms of the bracketed content. -/
theorem wikiLinkOfMatch_texts (m : WikiMatch) (w : Option Workspace) :
    (¬ '|' ∈ m.captured →
        (wikiLinkOfMatch m w).linkText = trimmed m.captured ∧
          (wikiLinkOfMatch m w).displayText = trimmed m.captured) ∧
      (∀ left right : QString, m.captured = left ++ '|' :: right → (∀ x ∈ left, x ≠ '|') →
        (wikiLinkOfMatch m w).linkText = trimmed left ∧
          (wikiLinkOfMatch m w).displayText =
            trimmed (right.takeWhile (fun c => c != '|'))) := by
  have e1 : (wikiLinkOfMatch m w).linkText =
      if m.captured.contains '|' then trimmed ((split '|' m.captured).getD 0 [])
      else trimmed m.captured := by
    cases w <;> rfl
  have e2 : (wikiLinkOfMatch m w).displayText =
      if m.captured.contains '|' then trimmed ((split '|' m.captured).getD 1 [])
      else trimmed m.captured := by
    cases w <;> rfl
  constructor
  · intro hno
    have : m.captured.contains '|' = false := by simpa using hno
    rw [e1, e2, this]
    simp
  · intro left right hc hl
    have hcon : m.captured.contains '|' = true := by
      rw [hc]; simp
    obtain ⟨tl, htl⟩ := split_head '|' right
    rw [e1, e2, hcon, hc, split_at_first '|' left right hl, htl]
    simp

/-- Counterexample to C25 as stated: in `[[a| b ]]` the part right of the
pipe is ` b ` and the display text is `b`, trimmed; in `[[a|b|c]]` the text
after the first pipe is `b|c` and the display text is `b`. -/
theorem parseWikiLinks_display_text :
    (parseWikiLinks "[[a| b ]]".toList none).map (fun l => (l.linkText, l.displayText)) =
        [("a".toList, "b".toList)] ∧
      (parseWikiLinks "[[a|b|c]]".toList none).map (fun l => (l.linkText, l.displayText)) =
        [("a".toList, "b".toList)] ∧
      "b".toList ≠ " b ".toList ∧ "b".toList ≠ "b|c".toList := by
  decide

/-- C25, amended (link text and display text). Every link of `parseWikiLinks`
spans `[[c]]` for a content `c` such that: without a pipe in `c`, link text
and display text are both `c` trimmed; with a pipe, the link text is the
trimmed part left of the first pipe, and when there is no second pipe the
display text is the trimmed part right of it. -/
theorem parseWikiLinks_texts (t : QString) (w : Option Workspace) (link : WikiLink)
    (h : link ∈ parseWikiLinks t w) :
    ∃ c : QString,
      (t.drop link.startPos).take link.length = "[[".toList ++ c ++ "]]".toList ∧
      (¬ '|' ∈ c → link.linkText = trimmed c ∧ link.displayText = trimmed c) ∧
      (∀ left right : QString, c = left ++ '|' :: right → (∀ x ∈ left, x ≠ '|') →
        link.linkText = trimmed left ∧
          ((∀ x ∈ right, x ≠ '|') → link.displayText = trimmed right)) := by
  have hm := h
  unfold parseWikiLinks at hm
  obtain ⟨m, hmem, hlink⟩ := List.mem_map.mp hm
  obtain ⟨pre, post, hs, hstart, hlen, -, -⟩ :=
    wikiLinkGlobalMatch_occurrence t.length 0 t m hmem
  have htexts := wikiLinkOfMatch_texts m w
  rw [hlink] at htexts
  refine ⟨m.captured, ?_, htexts.1, ?_⟩
  · rw [← hlink, (wikiLinkOfMatch_span m w).1, (wikiLinkOfMatch_span m w).2, hstart, hlen]
    have e : '[' :: '[' :: (m.captured ++ ']' :: ']' :: post) =
        ("[[".toList ++ m.captured ++ "]]".toList) ++ post := by
      simp
    have hl : ("[[".toList ++ m.captured ++ "]]".toList).length = m.captured.length + 4 := by
      simp [List.length_append]
    rw [hs, Nat.zero_add, List.drop_left, e, ← hl, List.take_left]
  · intro left right hc hl
    obtain ⟨h1, h2⟩ := htexts.2 left right hc hl
    refine ⟨h1, fun hr => ?_⟩
    have : right.takeWhile (fun c => c != '|') = right :=
      List.takeWhile_eq_self_iff.mpr (fun x hx => by simpa using hr x hx)
    rw [h2, this]

/-- Witness of C25, amended: the link `[[1a| the first ]]`. -/
theorem parseWikiLinks_texts_witness :
    ∃ c : QString,
      ("see [[1a| the first ]]".toList.drop 4).take 18 = "[[".toList ++ c ++ "]]".toList ∧
      (¬ '|' ∈ c → "1a".toList = trimmed c ∧ "the first".toList = trimmed c) ∧
      (∀ left right : QString, c = left ++ '|' :: right → (∀ x ∈ left, x ≠ '|') →
        "1a".toList = trimmed left ∧
          ((∀ x ∈ right, x ≠ '|') → "the first".toList = trimmed right)) :=
  parseWikiLinks_texts "see [[1a| the first ]]".toList none
    ⟨"1a".toList, "the first".toList, [], 4, 18, false⟩ (by decide)

/-! ## Files that cannot be opened -/

theorem asEmptyFile_path (f : NoteFile) : (asEmptyFile f).path = f.path := by
  unfold asEmptyFile
  cases f.content <;> rfl

theorem noteFiles_unreadableAsEmpty (ws : Workspace) :
    noteFiles (unreadableAsEmpty ws) = (noteFiles ws).map asEmptyFile := by
  unfold noteFiles unreadableAsEmpty
  rw [List.filter_map]
  congr 1
  apply List.filter_congr
  intro f _
  simp [Function.comp, asEmptyFile_path]

theorem idRoundReturns_asEmptyFile (token : QString) (f : NoteFile) :
    idRoundReturns token (asEmptyFile f) = idRoundReturns token f := by
  cases f with
  | mk path content =>
    cases content with
    | some text => rfl
    | none =>
      have : (parseZettelId (trimmed (readLine []))).isValid = false := by decide
      simp [idRoundReturns, asEmptyFile, this]

theorem titleRoundReturns_asEmptyFile (nt : QString) (f : NoteFile) :
    titleRoundReturns nt (asEmptyFile f) = titleRoundReturns nt f := by
  cases f with
  | mk path content =>
    cases content with
    | some text => rfl
    | none =>
      have : startsWithChar (readLine []) '#' = false := by decide
      simp [titleRoundReturns, asEmptyFile, this]

theorem zettelIdsOfFile_asEmptyFile (f : NoteFile) :
    zettelIdsOfFile (asEmptyFile f) = zettelIdsOfFile f := by
  cases f with
  | mk path content =>
    cases content with
    | some text => rfl
    | none =>
      have : (parseZettelId (trimmed (readLine []))).isValid = false := by decide
      simp [zettelIdsOfFile, asEmptyFile, this]

theorem find?_map_path (p : NoteFile → Bool) (l : List NoteFile)
    (hp : ∀ f, p (asEmptyFile f) = p f) :
    (match (l.map asEmptyFile).find? p with
      | some f => f.path
      | none => []) =
    (match l.find? p with
      | some f => f.path
      | none => []) := by
  induction l with
  | nil => rfl
  | cons f l ih =>
    rw [List.map_cons, List.find?_cons, List.find?_cons, hp f]
    cases p f with
    | true => exact asEmptyFile_path f
    | false => exact ih

theorem collectZettelIds_map_asEmptyFile (l : List NoteFile) :
    collectZettelIds (l.map asEmptyFile) = collectZettelIds l := by
  induction l with
  | nil => rfl
  | cons f l ih =>
    simp only [List.map_cons, collectZettelIds, zettelIdsOfFile_asEmptyFile, ih]

theorem collectZettelIds_append (a b : List NoteFile) :
    collectZettelIds (a ++ b) = collectZettelIds a ++ collectZettelIds b := by
  induction a with
  | nil => rfl
  | cons f a ih =>
    show zettelIdsOfFile f ++ collectZettelIds (a ++ b) =
      (zettelIdsOfFile f ++ collectZettelIds a) ++ collectZettelIds b
    rw [ih, List.append_assoc]

theorem parseWikiLinks_nil (w : Option Workspace) : parseWikiLinks [] w = [] := rfl

theorem filter_map_path (q : NoteFile → Bool) (hq : ∀ f, q (asEmptyFile f) = q f)
    (l : List NoteFile) :
    ((l.map asEmptyFile).filter q).map (fun f => f.path) =
      (l.filter q).map (fun f => f.path) := by
  induction l with
  | nil => rfl
  | cons f l ih =>
    rw [List.map_cons]
    by_cases h : q f = true
    · rw [List.filter_cons_of_pos (by rw [hq f]; exact h), List.filter_cons_of_pos h,
        List.map_cons, List.map_cons, ih, asEmptyFile_path]
    · rw [List.filter_cons_of_neg (by rw [hq f]; exact h), List.filter_cons_of_neg h, ih]

theorem backlinkTest_asEmptyFile (notePath : QString) (f : NoteFile) :
    (fun f : NoteFile =>
        if f.path == notePath then false
        else
          match f.content with
          | some content =>
            (parseWikiLinks content none).any
              (linkPointsTo (completeBaseName notePath)
                (extractZettelIdFromFileName (completeBaseName notePath)) notePath)
          | none => false) (asEmptyFile f) =
      (fun f : NoteFile =>
        if f.path == notePath then false
        else
          match f.content with
          | some content =>
            (parseWikiLinks content none).any
              (linkPointsTo (completeBaseName notePath)
                (extractZettelIdFromFileName (completeBaseName notePath)) notePath)
          | none => false) f := by
  cases f with
  | mk path content =>
    cases content with
    | some text => rfl
    | none => simp [asEmptyFile, parseWikiLinks_nil]

theorem unreadable_same_as_empty (ws : Workspace) (token notePath : QString) :
    findNoteById token (unreadableAsEmpty ws) = findNoteById token ws ∧
      findNoteByTitle token (unreadableAsEmpty ws) = findNoteByTitle token ws ∧
      getAllZettelIds (unreadableAsEmpty ws) = getAllZettelIds ws ∧
      findBacklinks notePath (unreadableAsEmpty ws) = findBacklinks notePath ws := by
  refine ⟨?_, ?_, ?_, ?_⟩
  · unfold findNoteById
    rw [noteFiles_unreadableAsEmpty]
    split
    · rfl
    · exact find?_map_path _ _ (idRoundReturns_asEmptyFile token)
  · unfold findNoteByTitle
    rw [noteFiles_unreadableAsEmpty]
    exact find?_map_path _ _ (titleRoundReturns_asEmptyFile _)
  · unfold getAllZettelIds
    rw [noteFiles_unreadableAsEmpty, collectZettelIds_map_asEmptyFile]
  · unfold findBacklinks
    rw [noteFiles_unreadableAsEmpty]
    exact filter_map_path _ (backlinkTest_asEmptyFile notePath) _
theorem noteFiles_append (a b : Workspace) : noteFiles (a ++ b) = noteFiles a ++ noteFiles b := by
  unfold noteFiles
  exact List.filter_append a b

theorem noteFiles_skip_find (p : NoteFile → Bool) (pre post : Workspace) (u : NoteFile)
    (hp : p u = false) :
    (noteFiles (pre ++ u :: post)).find? p = (noteFiles (pre ++ post)).find? p := by
  have e : pre ++ u :: post = pre ++ ([u] ++ post) := rfl
  rw [e, noteFiles_append, noteFiles_append, noteFiles_append, List.find?_append,
    List.find?_append, List.find?_append]
  have hu : (noteFiles [u]).find? p = none := by
    rw [List.find?_eq_none]
    intro f hf
    have : f = u := by
      have := (List.mem_filter.mp hf).1
      simpa using this
    rw [this, hp]
    simp
  rw [hu]
  simp

theorem noteFiles_skip_collect (pre post : Workspace) (u : NoteFile)
    (hu : zettelIdsOfFile u = []) :
    collectZettelIds (noteFiles (pre ++ u :: post)) =
      collectZettelIds (noteFiles (pre ++ post)) := by
  have e : pre ++ u :: post = pre ++ ([u] ++ post) := rfl
  have h1 : collectZettelIds (noteFiles [u]) = [] := by
    unfold noteFiles
    by_cases h : nameFilterMatches u.path = true
    · simp [List.filter_cons, h, collectZettelIds, hu]
    · simp [List.filter_cons, h, collectZettelIds]
  rw [e, noteFiles_append, noteFiles_append, noteFiles_append, collectZettelIds_append,
    collectZettelIds_append, collectZettelIds_append, h1]
  simp

theorem noteFiles_skip_filter (q : NoteFile → Bool) (pre post : Workspace) (u : NoteFile)
    (hq : q u = false) :
    (noteFiles (pre ++ u :: post)).filter q = (noteFiles (pre ++ post)).filter q := by
  have e : pre ++ u :: post = pre ++ ([u] ++ post) := rfl
  have h1 : (noteFiles [u]).filter q = [] := by
    rw [List.filter_eq_nil_iff]
    intro f hf
    have : f = u := by
      have := (List.mem_filter.mp hf).1
      simpa using this
    rw [this, hq]
    simp
  rw [e, noteFiles_append, noteFiles_append, noteFiles_append, List.filter_append,
    List.filter_append, List.filter_append, h1]
  simp

/-- C26 (a file that cannot be opened does not stop a scan). The four scans
return on a workspace what they return on the workspace in which every file
that cannot be opened is an empty file; and a file that cannot be opened and
does not match, or contributes nothing, by its name is passed over: the
result is that of the workspace without it, so the files after it are
examined. -/
theorem unreadable_file_skipped (ws : Workspace) (token notePath : QString) :
    (findNoteById token (unreadableAsEmpty ws) = findNoteById token ws ∧
      findNoteByTitle token (unreadableAsEmpty ws) = findNoteByTitle token ws ∧
      getAllZettelIds (unreadableAsEmpty ws) = getAllZettelIds ws ∧
      findBacklinks notePath (unreadableAsEmpty ws) = findBacklinks notePath ws) ∧
    (∀ (pre post : Workspace) (u : NoteFile), ws = pre ++ u :: post → u.content = none →
      (matchesById token u = false →
        findNoteById token ws = findNoteById token (pre ++ post)) ∧
      (matchesByTitle token u = false →
        findNoteByTitle token ws = findNoteByTitle token (pre ++ post)) ∧
      (noteIdOf u = none → getAllZettelIds ws = getAllZettelIds (pre ++ post)) ∧
      findBacklinks notePath ws = findBacklinks notePath (pre ++ post)) := by
  refine ⟨unreadable_same_as_empty ws token notePath, ?_⟩
  intro pre post u hws hu
  subst hws
  refine ⟨?_, ?_, ?_, ?_⟩
  · intro h
    unfold findNoteById
    rw [noteFiles_skip_find _ pre post u ((idRoundReturns_eq token u).trans h)]
  · intro h
    unfold findNoteByTitle
    simp only
    rw [noteFiles_skip_find _ pre post u ((titleRoundReturns_eq token u).trans h)]
  · intro h
    have hz : zettelIdsOfFile u = [] := by
      rw [List.eq_nil_iff_forall_not_mem]
      intro x hx
      rw [mem_zettelIdsOfFile, h] at hx
      cases hx
    unfold getAllZettelIds
    rw [noteFiles_skip_collect pre post u hz]
  · unfold findBacklinks
    simp only
    rw [noteFiles_skip_filter _ pre post u (by simp [hu])]

/-- Witness of C26: the first file of the scan cannot be opened, and the
files after it are found: `1a` resolves to `1a Details.md`, the title
`details` as well, the identifier `1a` is enumerated and `c.md` is a
backlink. -/
theorem unreadable_file_skipped_witness :
    findNoteById "1a".toList workspaceUnreadable = "/notes/1a Details.md".toList ∧
      findNoteByTitle "details".toList workspaceUnreadable = "/notes/1a Details.md".toList ∧
      getAllZettelIds workspaceUnreadable = ["1a".toList] ∧
      findBacklinks "/notes/1a Details.md".toList workspaceUnreadable = ["/notes/c.md".toList] ∧
      findNoteById "1a".toList workspaceUnreadable =
        findNoteById "1a".toList
          [⟨"/notes/1a Details.md".toList, some "# Details".toList⟩,
           ⟨"/notes/c.md".toList, some "see [[1a]]".toList⟩] :=
  ⟨by decide, by decide, by decide, by decide,
    ((unreadable_file_skipped workspaceUnreadable "1a".toList
        "/notes/1a Details.md".toList).2
      [] [⟨"/notes/1a Details.md".toList, some "# Details".toList⟩,
        ⟨"/notes/c.md".toList, some "see [[1a]]".toList⟩]
      ⟨"/notes/locked.md".toList, none⟩ rfl rfl).1 (by decide)⟩

/-! ## Position lookup -/

/-- The offset that `getLinkAtPosition` tests is the end of the word under
the cursor: on the closing `]]` of a link that a blank follows it is the
offset after the `]]`, whichever of the two brackets the cursor is at. -/
theorem selectWordUnderCursor_closing :
    selectWordUnderCursor "[[a]] x".toList 3 = 5 ∧
      selectWordUnderCursor "[[a]] x".toList 4 = 5 ∧
      selectWordUnderCursor "[[a]] x".toList 5 = 5 ∧
      selectWordUnderCursor "[[a]] x".toList 2 = 3 ∧
      selectWordUnderCursor "[[a]] x".toList 0 = 2 := by decide

/-- The word under the cursor decides, not the cursor offset: before `x[[a]]`
the offset 0 is in no span and its word `x` ends at 1, where the link starts,
so the lookup returns `a`; in `[[a]].` the offset 3 is in the span of the
link and the run `]].` under it ends at 6, after the span, so the lookup
returns the empty string. -/
theorem getLinkAtPosition_word_not_offset :
    parseWikiLinks "x[[a]]".toList none = [⟨"a".toList, "a".toList, [], 1, 5, false⟩] ∧
      ¬ spanContains ⟨"a".toList, "a".toList, [], 1, 5, false⟩ 0 ∧
      selectWordUnderCursor "x[[a]]".toList 0 = 1 ∧
      getLinkAtPosition "x[[a]]".toList 0 none = "a".toList ∧
      parseWikiLinks "[[a]].".toList none = [⟨"a".toList, "a".toList, [], 0, 5, false⟩] ∧
      spanContains ⟨"a".toList, "a".toList, [], 0, 5, false⟩ 3 ∧
      selectWordUnderCursor "[[a]].".toList 3 = 6 ∧
      getLinkAtPosition "[[a]].".toList 3 none = [] := by
  refine ⟨by decide, ?_, by decide, by decide, by decide, ?_, by decide, by decide⟩
  · unfold spanContains
    decide
  · unfold spanContains
    decide

/-! ## Base file names -/

/-- C28 (one base file name for the four scans). For the note `1.5 plan.md`
the base name of `findNoteById` and `getAllZettelIds` is `1`, that of
`findNoteByTitle` and `findBacklinks` is `1.5 plan`; so `findNoteById` of `1`
returns the note, matched by its file name. -/
theorem base_name_differs :
    baseName "/notes/1.5 plan.md".toList = "1".toList ∧
      completeBaseName "/notes/1.5 plan.md".toList = "1.5 plan".toList ∧
      matchesById "1".toList ⟨"/notes/1.5 plan.md".toList, none⟩ = true ∧
      findNoteById "1".toList workspacePlan = "/notes/1.5 plan.md".toList ∧
      findNoteByTitle "1.5 plan".toList workspacePlan = "/notes/1.5 plan.md".toList := by
  decide

/-! ## Parsing and validity -/

/-- On a word of the grammar `parseZettelId` returns the word as id, an
empty title, and valid. -/
theorem parseZettelId_of_grammar (id : QString) (h : id ∈ zettelGrammar) :
    parseZettelId id = { id := id, title := [], isValid := true } := by
  have := @parseZettelId_grammar_append id [] h (by simp)
  rw [List.append_nil] at this
  rw [this]
  rfl

/-- The validity that `parseZettelId` reports is `isValidZettelId` of the id
it returns, when that is not empty. -/
theorem parseZettelId_isValid (text : QString) (h : (parseZettelId text).id ≠ []) :
    (parseZettelId text).isValid = isValidZettelId (parseZettelId text).id := by
  unfold parseZettelId at h ⊢
  simp only at h ⊢
  cases hm : zettelIdRegexMatch (trimmed text) with
  | none => rw [hm] at h; exact absurd rfl h
  | some r => rfl

/-- C29 (`parseZettelId` gives back a valid id). The string made of `7` and a
line feed is accepted by `isValidZettelId`, and `parseZettelId` returns the
id `7` for it, not the string itself: the text is trimmed before it is
matched, and `isValidZettelId` accepts a final line feed. -/
theorem parseZettelId_final_line_feed :
    isValidZettelId ['7', LF] = true ∧
      parseZettelId ['7', LF] = { id := ['7'], title := [], isValid := true } ∧
      (parseZettelId ['7', LF]).id ≠ ['7', LF] := by
  decide

/-! ## Generated identifiers and resolution -/

theorem extractZettelIdFromFileName_grammar_append (c rest : QString) (hc : c ∈ zettelGrammar)
    (hrest : ∀ x, rest.head? = some x → isIdChar x = false) :
    extractZettelIdFromFileName (c ++ rest) = c := by
  unfold extractZettelIdFromFileName
  rw [zettelIdRegexMatch_append hc hrest]

/-- A word of the grammar that is not among the enumerated identifiers
matches no note file by its name; a file it matches has an identifier of
its own in its name, and carries the word in its first line. -/
theorem matchesById_of_not_enumerated (c : QString) (ws : Workspace) (f : NoteFile)
    (hc : c ∈ zettelGrammar) (hnew : c ∉ getAllZettelIds ws) (hf : f ∈ noteFiles ws)
    (hm : matchesById c f = true) :
    extractZettelIdFromFileName (baseName f.path) ≠ [] ∧
      extractZettelIdFromFileName (baseName f.path) ≠ c ∧
      (parseZettelId (firstLineOf f)).isValid = true ∧
      (parseZettelId (firstLineOf f)).id = c := by
  have hid : noteIdOf f ≠ some c := fun h =>
    hnew (((getAllZettelIds_spec ws).1 c).mpr ⟨f, hf, h⟩)
  have hname : extractZettelIdFromFileName (baseName f.path) ≠ c := by
    intro h
    apply hid
    unfold noteIdOf
    have hne : extractZettelIdFromFileName (baseName f.path) ≠ [] := by
      rw [h]
      intro h0
      rw [h0] at hc
      obtain ⟨d, t, h1, -, -⟩ := (mem_zettelGrammar_iff _).mp hc
      cases h1
    rw [if_pos hne, h]
  unfold matchesById at hm
  simp only [Bool.or_eq_true, Bool.and_eq_true, beq_iff_eq] at hm
  rcases hm with (h | h) | ⟨h1, h2⟩
  · exfalso
    apply hname
    have := extractZettelIdFromFileName_grammar_append c [] hc (by simp)
    rw [List.append_nil] at this
    rw [h, this]
  · exfalso
    apply hname
    have hpre := List.isPrefixOf_iff_prefix.mp h
    obtain ⟨r, hr⟩ := hpre
    rw [← hr, List.append_assoc]
    exact extractZettelIdFromFileName_grammar_append c ([' '] ++ r) hc
      (by intro x hx; simp at hx; subst hx; decide)
  · refine ⟨?_, hname, h1, h2⟩
    intro h0
    apply hid
    unfold noteIdOf
    rw [if_neg (by simpa using h0), if_pos h1, h2]

/-- A child generated for a parent of the grammar is matched by no note file
through its name; `findNoteById` can find it only in the first line of a file
whose name carries another identifier. -/
theorem generated_child_not_a_file_name (p : QString) (ws : Workspace) (f : NoteFile)
    (hp : p ∈ zettelGrammar) (hc : generateNextZettelId p ws ≠ [])
    (hf : f ∈ noteFiles ws) (hm : matchesById (generateNextZettelId p ws) f = true) :
    extractZettelIdFromFileName (baseName f.path) ≠ [] ∧
      extractZettelIdFromFileName (baseName f.path) ≠ generateNextZettelId p ws ∧
      (parseZettelId (firstLineOf f)).id = generateNextZettelId p ws := by
  have hpne : p ≠ [] := by
    intro h0
    rw [h0] at hp
    obtain ⟨d, t, h1, -, -⟩ := (mem_zettelGrammar_iff _).mp hp
    cases h1
  have e := (generateNextZettelId_of_parent p ws hpne).1
  rw [e] at hc hm ⊢
  rcases generateChildZettelId_cases p ws with h | ⟨-, hnew, sfx, -, hsfx, heq⟩
  · exact absurd h hc
  · have hg : generateChildZettelId p ws ∈ zettelGrammar := by
      rw [heq]; exact grammar_append_idChars hp sfx hsfx
    obtain ⟨h1, h2, -, h4⟩ := matchesById_of_not_enumerated _ ws f hg hnew hf hm
    exact ⟨h1, h2, h4⟩

/-- C30 (a generated identifier names no note). In the workspace whose only
note is `1 Intro.md` with the first line `1a Notes`, the enumerated
identifiers are `1` alone, the child generated for `1` is `1a`, and
`findNoteById` resolves `1a` to that note; likewise, with `5 Plan.md` whose
first line is `6 Next`, the next top-level identifier is `6` and it resolves
to that note. The enumeration reads the first line only of a file whose name
yields no identifier, the resolution reads it for every file. -/
theorem generated_identifier_resolves :
    getAllZettelIds workspaceFirstLineId = ["1".toList] ∧
      generateNextZettelId "1".toList workspaceFirstLineId = "1a".toList ∧
      findNoteById "1a".toList workspaceFirstLineId = "/notes/1 Intro.md".toList ∧
      getAllZettelIds workspaceFirstLineTop = ["5".toList] ∧
      generateNextZettelId [] workspaceFirstLineTop = "6".toList ∧
      findNoteById "6".toList workspaceFirstLineTop = "/notes/5 Plan.md".toList := by
  decide

end LinkParser
